import Mathlib

/-!
Verification of the synapse word-graph repository.

The Python sources are shallowly embedded:
* similarity scores (Python floats) are modelled as rationals `ℚ`;
* Python dicts with insertion order are modelled as association lists;
* Python sets whose iteration order is unspecified are modelled as lists
  (tie-breaking among equal keys is the only behaviour that depends on the
  order, and no theorem below depends on a tie-break);
* `random` draws are modelled as explicit oracle streams.

Each definition mirrors one function of the repository; the source file and
function are named in its doc comment.
-/

namespace Synapse

/-- Vocabulary token (a Python `str`). -/
abbrev Word := String

/-- One value of the graph's `nodes` mapping: `{"edges": {...}, "tsne": [x, y]}`
as written by `scripts/build_graph.py`. -/
structure Node where
  edges : List (Word × ℚ)
  tsne : List ℚ
deriving DecidableEq, Repr

/-- The `nodes` dictionary of `graph.json`: an insertion-ordered map
word ↦ node, modelled as an association list. -/
abbrev Graph := List (Word × Node)

/-- The keys of the `nodes` dictionary. -/
def nodeKeys (g : Graph) : List Word := g.map Prod.fst

/-- Python dict lookup `graph[w]` (first matching key). -/
def lookupNode (g : Graph) (w : Word) : Option Node :=
  match g with
  | [] => none
  | p :: rest => if p.1 = w then some p.2 else lookupNode rest w

/-- `graph[current].get("edges", {})` — the edge list of a word, empty when the
word is absent. -/
def edgesOf (g : Graph) (w : Word) : List (Word × ℚ) :=
  match lookupNode g w with
  | some n => n.edges
  | none => []

/-- Dict lookup in an edge map: the similarity stored for neighbor `v`. -/
def edgeSim (es : List (Word × ℚ)) (v : Word) : Option ℚ :=
  match es with
  | [] => none
  | p :: rest => if p.1 = v then some p.2 else edgeSim rest v

/-- Well-formedness of a graph as produced by `build_graph.py`: distinct node
keys, distinct neighbor keys in every edge map, every neighbor present as a
node, and every similarity at most 1 (cosine similarity lies in [-1, 1]), so
that the Dijkstra cost `1 - similarity` is nonnegative. -/
def WFGraph (g : Graph) : Prop :=
  (nodeKeys g).Nodup ∧
  ∀ p ∈ g, (p.2.edges.map Prod.fst).Nodup ∧
    ∀ e ∈ p.2.edges, e.1 ∈ nodeKeys g ∧ e.2 ≤ 1

instance : DecidablePred WFGraph := fun g => by
  unfold WFGraph; infer_instance

/-- `Reaches g a v c`: there is a walk from `a` to `v` in `g` whose total cost
`Σ (1 - similarity)` is `c`. -/
inductive Reaches (g : Graph) (a : Word) : Word → ℚ → Prop
  | refl : a ∈ nodeKeys g → Reaches g a a 0
  | step {u v : Word} {c s : ℚ} :
      Reaches g a u c → (v, s) ∈ edgesOf g u → Reaches g a v (c + (1 - s))

/-- Cost of an explicit word sequence: `Σ (1 - similarity)` over consecutive
pairs, or `none` when some consecutive pair is not an edge (or the list is
empty). -/
def costOf (g : Graph) : List Word → Option ℚ
  | [] => none
  | [_] => some 0
  | x :: y :: t =>
    match edgeSim (edgesOf g x) y, costOf g (y :: t) with
    | some s, some c => some ((1 - s) + c)
    | _, _ => none

/-! Basic lemmas about lookups and reachability. -/

theorem lookupNode_mem {g : Graph} {w : Word} {n : Node}
    (h : lookupNode g w = some n) : (w, n) ∈ g := by
  induction g with
  | nil => simp [lookupNode] at h
  | cons p rest ih =>
    by_cases hp : p.1 = w
    · simp only [lookupNode, hp, if_pos] at h
      simp only [Option.some.injEq] at h
      have hpe : p = (w, n) := by
        cases p
        simp_all
      rw [hpe]
      exact List.mem_cons_self _ _
    · simp only [lookupNode, hp, if_neg, if_false] at h
      exact List.mem_cons_of_mem _ (ih h)

theorem lookupNode_isSome_of_mem {g : Graph} {w : Word}
    (h : w ∈ nodeKeys g) : ∃ n, lookupNode g w = some n := by
  induction g with
  | nil => simp [nodeKeys] at h
  | cons p rest ih =>
    by_cases hp : p.1 = w
    · exact ⟨p.2, by simp [lookupNode, hp]⟩
    · have : w ∈ nodeKeys rest := by
        simp only [nodeKeys, List.map_cons, List.mem_cons] at h
        exact h.resolve_left (fun he => hp he.symm)
      obtain ⟨n, hn⟩ := ih this
      exact ⟨n, by simp [lookupNode, hp, hn]⟩

theorem mem_nodeKeys_of_lookup {g : Graph} {w : Word} {n : Node}
    (h : lookupNode g w = some n) : w ∈ nodeKeys g := by
  have := lookupNode_mem h
  exact List.mem_map.mpr ⟨(w, n), this, rfl⟩

theorem edgesOf_mem_graph {g : Graph} {u : Word} {e : Word × ℚ}
    (h : e ∈ edgesOf g u) : ∃ n, lookupNode g u = some n ∧ e ∈ n.edges := by
  unfold edgesOf at h
  cases hl : lookupNode g u with
  | none => rw [hl] at h; simp at h
  | some n => rw [hl] at h; exact ⟨n, rfl, h⟩

/-- A well-formed graph has edge targets among its keys and similarities ≤ 1. -/
theorem WFGraph.edge_spec {g : Graph} (hWF : WFGraph g) {u v : Word} {s : ℚ}
    (h : (v, s) ∈ edgesOf g u) : v ∈ nodeKeys g ∧ s ≤ 1 := by
  obtain ⟨n, hl, he⟩ := edgesOf_mem_graph h
  exact (hWF.2 (u, n) (lookupNode_mem hl)).2 (v, s) he

theorem edge_source_mem {g : Graph} {u : Word} {e : Word × ℚ}
    (h : e ∈ edgesOf g u) : u ∈ nodeKeys g := by
  obtain ⟨n, hl, _⟩ := edgesOf_mem_graph h
  exact mem_nodeKeys_of_lookup hl

theorem Reaches.start_mem {g : Graph} {a v : Word} {c : ℚ}
    (h : Reaches g a v c) : a ∈ nodeKeys g := by
  induction h with
  | refl h => exact h
  | step _ _ ih => exact ih

theorem Reaches.nonneg {g : Graph} (hWF : WFGraph g) {a v : Word} {c : ℚ}
    (h : Reaches g a v c) : 0 ≤ c := by
  induction h with
  | refl _ => exact le_refl 0
  | @step u v c s _ he ih =>
    have hs := (hWF.edge_spec he).2
    have : (0 : ℚ) ≤ 1 - s := by linarith
    linarith

theorem WFGraph.cost_nonneg {g : Graph} (hWF : WFGraph g) {u v : Word} {s : ℚ}
    (h : (v, s) ∈ edgesOf g u) : (0 : ℚ) ≤ 1 - s := by
  have := (hWF.edge_spec h).2
  linarith

/-- In an edge map with distinct keys, membership and lookup agree. -/
theorem edgeSim_eq_of_mem {es : List (Word × ℚ)} (hnd : (es.map Prod.fst).Nodup)
    {v : Word} {s : ℚ} (h : (v, s) ∈ es) : edgeSim es v = some s := by
  induction es with
  | nil => simp at h
  | cons p rest ih =>
    simp only [List.map_cons, List.nodup_cons] at hnd
    rcases List.mem_cons.mp h with he | hm
    · cases he
      simp [edgeSim]
    · have hne : p.1 ≠ v := by
        intro hpe
        exact hnd.1 (hpe ▸ List.mem_map.mpr ⟨(v, s), hm, rfl⟩)
      simp only [edgeSim, hne, if_neg, if_false]
      exact ih hnd.2 hm

theorem mem_of_edgeSim {es : List (Word × ℚ)} {v : Word} {s : ℚ}
    (h : edgeSim es v = some s) : (v, s) ∈ es := by
  induction es with
  | nil => simp [edgeSim] at h
  | cons p rest ih =>
    by_cases hp : p.1 = v
    · simp only [edgeSim, hp, if_pos] at h
      cases h
      cases p
      simp_all
    · simp only [edgeSim, hp, if_neg, if_false] at h
      exact List.mem_cons_of_mem _ (ih h)

/-- A list path with a defined cost yields a `Reaches` walk (the first node must
be a graph key, which holds as soon as the path has an edge, and is assumed for
one-element paths). -/
theorem reaches_of_costOf {g : Graph} (hWF : WFGraph g) :
    ∀ (q : List Word) (a b : Word) (c : ℚ), a ∈ nodeKeys g →
      q.head? = some a → q.getLast? = some b → costOf g q = some c →
      Reaches g a b c := by
  intro q
  induction q with
  | nil => intro a b c _ h; simp at h
  | cons x t ih =>
    intro a b c ha hh hl hc
    simp only [List.head?_cons, Option.some.injEq] at hh
    subst hh
    cases t with
    | nil =>
      simp only [List.getLast?_singleton, Option.some.injEq] at hl
      subst hl
      simp only [costOf, Option.some.injEq] at hc
      subst hc
      exact Reaches.refl ha
    | cons y t' =>
      simp only [costOf] at hc
      cases hs : edgeSim (edgesOf g x) y with
      | none => rw [hs] at hc; simp at hc
      | some s =>
        rw [hs] at hc
        cases hrest : costOf g (y :: t') with
        | none => rw [hrest] at hc; simp at hc
        | some crest =>
          rw [hrest] at hc
          simp only [Option.some.injEq] at hc
          have hedge : (y, s) ∈ edgesOf g x := mem_of_edgeSim hs
          have hy : y ∈ nodeKeys g := (hWF.edge_spec hedge).1
          have hl' : (y :: t').getLast? = some b := by
            rw [List.getLast?_cons_cons] at hl
            exact hl
          -- walk from x: first the edge x→y, then the walk along y :: t'
          have hyb : Reaches g y b crest := ih y b crest hy rfl hl' hrest
          -- prepend the edge x→y to the walk y→b
          have hprep : ∀ (w : Word) (cw : ℚ), Reaches g y w cw →
              Reaches g x w ((1 - s) + cw) := by
            intro w cw hw
            induction hw with
            | refl _ =>
              have : Reaches g x y (0 + (1 - s)) :=
                Reaches.step (Reaches.refl (edge_source_mem hedge)) hedge
              simpa [add_comm] using this
            | @step u v cu su hu he ihp =>
              have := Reaches.step ihp he
              have harr : (1 - s) + cu + (1 - su) = (1 - s) + (cu + (1 - su)) := by ring
              rw [harr] at this
              exact this
          rw [← hc]
          exact hprep b crest hyb

/-!
## The generator's Dijkstra (`scripts/generate_daily_pairs.py`, `find_shortest_path`)

The Python loop scans the `unvisited` set for the node of smallest finite
distance (`current = None` when every unvisited distance is infinite).
`float('infinity')` is modelled as `none`.  The scan keeps the first node
attaining the running minimum, exactly like the Python `<` comparison; the
iteration order of the Python set is unspecified, so the model fixes the order
of the `unvisited` list (no theorem depends on the tie-break).  The redundant
`distances[current] == float('infinity')` break (unreachable because the scan
only returns finite distances) is dropped.
-/

/-- The argmin scan of `find_shortest_path`: accumulator holds the best
`(node, distance)` so far (`none` plays the role of `min_distance = ∞`). -/
def stepAcc (dist : Word → Option ℚ) (n : Word) (acc : Option (Word × ℚ)) :
    Option (Word × ℚ) :=
  match dist n with
  | none => acc
  | some d =>
    match acc with
    | none => some (n, d)
    | some cm => if d < cm.2 then some (n, d) else some cm

/-- `for node in unvisited: if distances[node] < min_distance: ...` — one scan
over the unvisited collection, threading the best `(current, min_distance)`. -/
def scanMin (dist : Word → Option ℚ) : List Word → Option (Word × ℚ) → Option (Word × ℚ)
  | [], acc => acc
  | n :: ns, acc => scanMin dist ns (stepAcc dist n acc)

theorem stepAcc_none {dist : Word → Option ℚ} {n : Word} {acc : Option (Word × ℚ)}
    (h : dist n = none) : stepAcc dist n acc = acc := by
  unfold stepAcc
  rw [h]

theorem stepAcc_some_nil {dist : Word → Option ℚ} {n : Word} {d : ℚ}
    (h : dist n = some d) : stepAcc dist n none = some (n, d) := by
  unfold stepAcc
  rw [h]

theorem stepAcc_some_acc {dist : Word → Option ℚ} {n : Word} {d : ℚ} {cm : Word × ℚ}
    (h : dist n = some d) :
    stepAcc dist n (some cm) = if d < cm.2 then some (n, d) else some cm := by
  unfold stepAcc
  rw [h]

theorem scanMin_eq_none {dist : Word → Option ℚ} :
    ∀ (l : List Word) (acc : Option (Word × ℚ)), scanMin dist l acc = none →
      acc = none ∧ ∀ n ∈ l, dist n = none := by
  intro l
  induction l with
  | nil => intro acc h; exact ⟨h, by simp⟩
  | cons n ns ih =>
    intro acc h
    simp only [scanMin] at h
    obtain ⟨h1, h2⟩ := ih _ h
    cases hd : dist n with
    | some d =>
      exfalso
      cases hacc : acc with
      | some cm =>
        rw [hacc, stepAcc_some_acc hd] at h1
        by_cases hlt : d < cm.2
        · rw [if_pos hlt] at h1; cases h1
        · rw [if_neg hlt] at h1; cases h1
      | none =>
        rw [hacc, stepAcc_some_nil hd] at h1
        cases h1
    | none =>
      rw [stepAcc_none hd] at h1
      refine ⟨h1, ?_⟩
      intro m hm
      rcases List.mem_cons.mp hm with he | hm'
      · exact he ▸ hd
      · exact h2 m hm'

theorem scanMin_some_spec {dist : Word → Option ℚ} :
    ∀ (l : List Word) (acc : Option (Word × ℚ)),
      (∀ p, acc = some p → dist p.1 = some p.2) →
      ∀ c m, scanMin dist l acc = some (c, m) →
        dist c = some m ∧ (c ∈ l ∨ acc = some (c, m)) ∧
        (∀ n ∈ l, ∀ d, dist n = some d → m ≤ d) ∧
        (∀ p, acc = some p → m ≤ p.2) := by
  intro l
  induction l with
  | nil =>
    intro acc hacc c m h
    simp only [scanMin] at h
    refine ⟨hacc _ h, Or.inr h, by simp, ?_⟩
    intro p hp
    rw [h] at hp
    cases hp
    exact le_refl m
  | cons n ns ih =>
    intro acc hacc c m h
    simp only [scanMin] at h
    cases hd : dist n with
    | some d =>
      cases hacc2 : acc with
      | some cm =>
        rw [hacc2, stepAcc_some_acc hd] at h
        by_cases hlt : d < cm.2
        · rw [if_pos hlt] at h
          have hacc' : ∀ p, (some (n, d) : Option (Word × ℚ)) = some p → dist p.1 = some p.2 := by
            intro p hp; cases hp; exact hd
          obtain ⟨h1, h2, h3, h4⟩ := ih _ hacc' c m h
          have hmd : m ≤ d := h4 (n, d) rfl
          refine ⟨h1, ?_, ?_, ?_⟩
          · rcases h2 with hin | heq
            · exact Or.inl (List.mem_cons_of_mem _ hin)
            · cases heq; exact Or.inl (List.mem_cons_self _ _)
          · intro n' hn' d' hd'
            rcases List.mem_cons.mp hn' with he | hm'
            · subst he; rw [hd] at hd'; cases hd'; exact hmd
            · exact h3 n' hm' d' hd'
          · intro p hp
            cases hp
            exact le_of_lt (lt_of_le_of_lt hmd hlt)
        · rw [if_neg hlt] at h
          have hacc' : ∀ p, (some cm : Option (Word × ℚ)) = some p → dist p.1 = some p.2 := by
            intro p hp; cases hp; exact hacc cm hacc2
          obtain ⟨h1, h2, h3, h4⟩ := ih _ hacc' c m h
          have hmcm : m ≤ cm.2 := h4 cm rfl
          refine ⟨h1, ?_, ?_, ?_⟩
          · rcases h2 with hin | heq
            · exact Or.inl (List.mem_cons_of_mem _ hin)
            · exact Or.inr (hacc2 ▸ heq)
          · intro n' hn' d' hd'
            rcases List.mem_cons.mp hn' with he | hm'
            · subst he
              rw [hd] at hd'
              cases hd'
              exact le_trans hmcm (not_lt.mp hlt)
            · exact h3 n' hm' d' hd'
          · intro p hp
            cases hp
            exact hmcm
      | none =>
        rw [hacc2, stepAcc_some_nil hd] at h
        have hacc' : ∀ p, (some (n, d) : Option (Word × ℚ)) = some p → dist p.1 = some p.2 := by
          intro p hp; cases hp; exact hd
        obtain ⟨h1, h2, h3, h4⟩ := ih _ hacc' c m h
        have hmd : m ≤ d := h4 (n, d) rfl
        refine ⟨h1, ?_, ?_, ?_⟩
        · rcases h2 with hin | heq
          · exact Or.inl (List.mem_cons_of_mem _ hin)
          · cases heq; exact Or.inl (List.mem_cons_self _ _)
        · intro n' hn' d' hd'
          rcases List.mem_cons.mp hn' with he | hm'
          · subst he; rw [hd] at hd'; cases hd'; exact hmd
          · exact h3 n' hm' d' hd'
        · intro p hp
          cases hp
    | none =>
      rw [stepAcc_none hd] at h
      obtain ⟨h1, h2, h3, h4⟩ := ih _ hacc c m h
      refine ⟨h1, ?_, ?_, h4⟩
      · rcases h2 with hin | heq
        · exact Or.inl (List.mem_cons_of_mem _ hin)
        · exact Or.inr heq
      · intro n' hn' d' hd'
        rcases List.mem_cons.mp hn' with he | hm'
        · subst he; rw [hd] at hd'; cases hd'
        · exact h3 n' hm' d' hd'

theorem scanMin_none_spec {dist : Word → Option ℚ} {l : List Word}
    (h : scanMin dist l none = none) : ∀ n ∈ l, dist n = none :=
  (scanMin_eq_none l none h).2

theorem scanMin_mem {dist : Word → Option ℚ} {l : List Word} {c : Word} {m : ℚ}
    (h : scanMin dist l none = some (c, m)) : c ∈ l := by
  obtain ⟨_, h2, _, _⟩ := scanMin_some_spec l none (by simp) c m h
  rcases h2 with hin | habs
  · exact hin
  · cases habs

theorem scanMin_dist {dist : Word → Option ℚ} {l : List Word} {c : Word} {m : ℚ}
    (h : scanMin dist l none = some (c, m)) : dist c = some m :=
  (scanMin_some_spec l none (by simp) c m h).1

theorem scanMin_min {dist : Word → Option ℚ} {l : List Word} {c : Word} {m : ℚ}
    (h : scanMin dist l none = some (c, m)) :
    ∀ n ∈ l, ∀ d, dist n = some d → m ≤ d :=
  (scanMin_some_spec l none (by simp) c m h).2.2.1

/-- `distance_through_current < distances[neighbor]`, with an absent entry
playing the role of infinity. -/
def improves (o : Option ℚ) (nd : ℚ) : Prop := ∀ dv, o = some dv → nd < dv

instance : ∀ (o : Option ℚ) (nd : ℚ), Decidable (improves o nd) := fun o nd =>
  match o with
  | none => isTrue (by intro dv h; cases h)
  | some dv =>
    decidable_of_iff (nd < dv) (by
      constructor
      · intro h dv' he
        cases he
        exact h
      · intro h
        exact h dv rfl)

theorem improves_none {nd : ℚ} : improves none nd := by
  intro dv h
  cases h

theorem improves_some {dv nd : ℚ} : improves (some dv) nd ↔ nd < dv := by
  constructor
  · intro h; exact h dv rfl
  · intro h dv' he; cases he; exact h

/-- The edge-relaxation loop shared by both Dijkstra implementations:
`for neighbor, similarity in edges: ...` updating `distances` and
`previous_nodes` on strict improvement, skipping visited neighbors. -/
def relaxEdges (cur : Word) (dcur : ℚ) (visited : List Word) :
    List (Word × ℚ) → (Word → Option ℚ) → (Word → Option Word) →
    (Word → Option ℚ) × (Word → Option Word)
  | [], dist, prev => (dist, prev)
  | (v, s) :: rest, dist, prev =>
    if v ∈ visited then relaxEdges cur dcur visited rest dist prev
    else if improves (dist v) (dcur + (1 - s)) then
      relaxEdges cur dcur visited rest
        (fun w => if w = v then some (dcur + (1 - s)) else dist w)
        (fun w => if w = v then some cur else prev w)
    else relaxEdges cur dcur visited rest dist prev

/-- Pointwise characterization of `relaxEdges`: each word is either untouched,
or it received a strict improvement through an edge of the processed list. -/
theorem relaxEdges_char (cur : Word) (dcur : ℚ) (visited : List Word) :
    ∀ (edges : List (Word × ℚ)) (dist : Word → Option ℚ) (prev : Word → Option Word) (w : Word),
      ((relaxEdges cur dcur visited edges dist prev).1 w = dist w ∧
       (relaxEdges cur dcur visited edges dist prev).2 w = prev w) ∨
      (w ∉ visited ∧ (relaxEdges cur dcur visited edges dist prev).2 w = some cur ∧
       ∃ s, (w, s) ∈ edges ∧
         (relaxEdges cur dcur visited edges dist prev).1 w = some (dcur + (1 - s)) ∧
         ∀ dv, dist w = some dv → dcur + (1 - s) < dv) := by
  intro edges
  induction edges with
  | nil => intro dist prev w; exact Or.inl ⟨rfl, rfl⟩
  | cons p rest ih =>
    intro dist prev w
    obtain ⟨v, s⟩ := p
    by_cases hv : v ∈ visited
    · simp only [relaxEdges, if_pos hv]
      rcases ih dist prev w with h | ⟨h1, h2, s', h3, h4, h5⟩
      · exact Or.inl h
      · exact Or.inr ⟨h1, h2, s', List.mem_cons_of_mem _ h3, h4, h5⟩
    · by_cases himp : improves (dist v) (dcur + (1 - s))
      · simp only [relaxEdges, if_neg hv, if_pos himp]
        rcases ih (fun w => if w = v then some (dcur + (1 - s)) else dist w)
            (fun w => if w = v then some cur else prev w) w with ⟨h1, h2⟩ | ⟨h1, h2, s', h3, h4, h5⟩
        · by_cases hw : w = v
          · subst hw
            refine Or.inr ⟨hv, ?_, s, List.mem_cons_self _ _, ?_, ?_⟩
            · rw [h2]; simp
            · rw [h1]; simp
            · intro dv hdv'
              exact himp dv hdv'
          · exact Or.inl ⟨by rw [h1]; simp [hw], by rw [h2]; simp [hw]⟩
        · by_cases hw : w = v
          · subst hw
            refine Or.inr ⟨h1, h2, s', List.mem_cons_of_mem _ h3, h4, ?_⟩
            intro dv hdv'
            have h5' := h5 (dcur + (1 - s)) (by simp)
            exact lt_trans h5' (himp dv hdv')
          · refine Or.inr ⟨h1, h2, s', List.mem_cons_of_mem _ h3, h4, ?_⟩
            intro dv hdv'
            exact h5 dv (by simp [hw, hdv'])
      · simp only [relaxEdges, if_neg hv, if_neg himp]
        rcases ih dist prev w with h | ⟨h1, h2, s', h3, h4, h5⟩
        · exact Or.inl h
        · exact Or.inr ⟨h1, h2, s', List.mem_cons_of_mem _ h3, h4, h5⟩

/-- `relaxEdges` never increases a distance. -/
theorem relaxEdges_mono (cur : Word) (dcur : ℚ) (visited : List Word)
    (edges : List (Word × ℚ)) (dist : Word → Option ℚ) (prev : Word → Option Word)
    (w : Word) (dw : ℚ) (hdw : dist w = some dw) :
    ∃ dw', (relaxEdges cur dcur visited edges dist prev).1 w = some dw' ∧ dw' ≤ dw := by
  rcases relaxEdges_char cur dcur visited edges dist prev w with ⟨h1, _⟩ | ⟨_, _, s, _, h4, h5⟩
  · exact ⟨dw, by rw [h1, hdw], le_refl dw⟩
  · exact ⟨dcur + (1 - s), h4, le_of_lt (h5 dw hdw)⟩

/-- After `relaxEdges`, every processed unvisited neighbor is relaxed. -/
theorem relaxEdges_bound (cur : Word) (dcur : ℚ) (visited : List Word) :
    ∀ (edges : List (Word × ℚ)) (dist : Word → Option ℚ) (prev : Word → Option Word)
      (v : Word) (s : ℚ), (v, s) ∈ edges → v ∉ visited →
      ∃ dv, (relaxEdges cur dcur visited edges dist prev).1 v = some dv ∧
        dv ≤ dcur + (1 - s) := by
  intro edges
  induction edges with
  | nil => intro dist prev v s h; simp at h
  | cons p rest ih =>
    intro dist prev v s hmem hnv
    obtain ⟨v0, s0⟩ := p
    rcases List.mem_cons.mp hmem with he | hm
    · cases he
      by_cases himp : improves (dist v) (dcur + (1 - s))
      · simp only [relaxEdges, if_neg hnv, if_pos himp]
        obtain ⟨dw', h1, h2⟩ := relaxEdges_mono cur dcur visited rest
          (fun w => if w = v then some (dcur + (1 - s)) else dist w)
          (fun w => if w = v then some cur else prev w) v (dcur + (1 - s)) (by simp)
        exact ⟨dw', h1, h2⟩
      · simp only [relaxEdges, if_neg hnv, if_neg himp]
        simp only [improves, not_forall] at himp
        obtain ⟨dv0, hdv0, hnlt⟩ := himp
        obtain ⟨dw', h1, h2⟩ := relaxEdges_mono cur dcur visited rest _ _ v dv0 hdv0
        exact ⟨dw', h1, le_trans h2 (not_lt.mp hnlt)⟩
    · by_cases hv0 : v0 ∈ visited
      · simp only [relaxEdges, if_pos hv0]
        exact ih dist prev v s hm hnv
      · by_cases himp : improves (dist v0) (dcur + (1 - s0))
        · simp only [relaxEdges, if_neg hv0, if_pos himp]
          exact ih _ _ v s hm hnv
        · simp only [relaxEdges, if_neg hv0, if_neg himp]
          exact ih dist prev v s hm hnv

/-- The back-pointer chain recorded by Dijkstra, read from a node back to the
start: `chainToStart prev a [v, u, ..., a]` says `previous[v] = u`, ..., ending
at `a` with `previous[a] = None`. -/
def chainToStart (prev : Word → Option Word) (a : Word) : List Word → Prop
  | [] => False
  | [x] => x = a ∧ prev x = none
  | x :: y :: t => prev x = some y ∧ chainToStart prev a (y :: t)

theorem chainToStart_congr {prev prev' : Word → Option Word} {a : Word} :
    ∀ rp : List Word, (∀ x ∈ rp, prev' x = prev x) →
      chainToStart prev a rp → chainToStart prev' a rp := by
  intro rp
  induction rp with
  | nil => intro _ h; exact h
  | cons x t ih =>
    intro hagree h
    cases t with
    | nil =>
      obtain ⟨h1, h2⟩ := h
      exact ⟨h1, by rw [hagree x (List.mem_cons_self _ _)]; exact h2⟩
    | cons y t' =>
      obtain ⟨h1, h2⟩ := h
      refine ⟨by rw [hagree x (List.mem_cons_self _ _)]; exact h1, ?_⟩
      exact ih (fun z hz => hagree z (List.mem_cons_of_mem _ hz)) h2

theorem chainToStart_getLast {prev : Word → Option Word} {a : Word} :
    ∀ rp : List Word, chainToStart prev a rp → rp.getLast? = some a := by
  intro rp
  induction rp with
  | nil => intro h; cases h
  | cons x t ih =>
    intro h
    cases t with
    | nil =>
      obtain ⟨h1, _⟩ := h
      simp [h1]
    | cons y t' =>
      obtain ⟨_, h2⟩ := h
      rw [List.getLast?_cons_cons]
      exact ih h2

/-- Appending one more edge to a costed path. -/
theorem costOf_append_edge {g : Graph} :
    ∀ (p : List Word) (c : ℚ) (u v : Word) (s : ℚ),
      costOf g p = some c → p.getLast? = some u → edgeSim (edgesOf g u) v = some s →
      costOf g (p ++ [v]) = some (c + (1 - s)) := by
  intro p
  induction p with
  | nil => intro c u v s h; simp [costOf] at h
  | cons x t ih =>
    intro c u v s hc hl hs
    cases t with
    | nil =>
      simp only [List.getLast?_singleton, Option.some.injEq] at hl
      subst hl
      simp only [costOf, Option.some.injEq] at hc
      subst hc
      simp only [List.cons_append, List.nil_append, costOf, hs]
      norm_num
    | cons y t' =>
      rw [List.getLast?_cons_cons] at hl
      simp only [costOf] at hc
      cases hsxy : edgeSim (edgesOf g x) y with
      | none => rw [hsxy] at hc; simp at hc
      | some sxy =>
        rw [hsxy] at hc
        cases hct : costOf g (y :: t') with
        | none => rw [hct] at hc; simp at hc
        | some cyt =>
          rw [hct] at hc
          simp only [Option.some.injEq] at hc
          have := ih cyt u v s hct hl hs
          simp only [List.cons_append] at this ⊢
          simp only [costOf, hsxy, this]
          rw [← hc]
          congr 1
          ring

/-- Crossing the frontier: any walk from the start to a word outside the
settled region passes through a candidate whose recorded value is at most the
walk's cost.  `Cand` abstracts over the two queue disciplines (scan of the
`unvisited` set, entries of the heap). -/
theorem frontier_crossing (g : Graph) (hWF : WFGraph g) (a : Word)
    (S : List Word) (dval : Word → Option ℚ) (Cand : Word → ℚ → Prop)
    (hSettledMin : ∀ v ∈ S, ∀ c', Reaches g a v c' → ∃ dv, dval v = some dv ∧ dv ≤ c')
    (hRelaxed : ∀ u ∈ S, ∀ v s, (v, s) ∈ edgesOf g u → v ∉ S →
        ∀ du, dval u = some du → ∃ e, Cand v e ∧ e ≤ du + (1 - s))
    (hBase : a ∉ S → Cand a 0) :
    ∀ z c, Reaches g a z c → z ∉ S →
      ∃ w e, w ∉ S ∧ w ∈ nodeKeys g ∧ Cand w e ∧ e ≤ c := by
  intro z c h
  induction h with
  | refl ha => intro hz; exact ⟨a, 0, hz, ha, hBase hz, le_refl 0⟩
  | @step u v c s hu he ih =>
    intro hv
    by_cases hus : u ∈ S
    · obtain ⟨du, hdu, hdule⟩ := hSettledMin u hus c hu
      obtain ⟨ec, hc, hce⟩ := hRelaxed u hus v s he hv du hdu
      refine ⟨v, ec, hv, (hWF.edge_spec he).1, hc, ?_⟩
      linarith
    · obtain ⟨w, ec, h1, h2, h3, h4⟩ := ih hus
      have := hWF.cost_nonneg he
      exact ⟨w, ec, h1, h2, h3, by linarith⟩

/-- Mutable state of the generator's `find_shortest_path`:
`distances` / `previous_nodes` / `visited` / `unvisited`. -/
structure DStateL where
  dist : Word → Option ℚ
  prev : Word → Option Word
  visited : List Word
  unvisited : List Word

/-- The `while unvisited:` loop of `find_shortest_path` in
`generate_daily_pairs.py`: pick the unvisited node of minimum distance, stop
when none is reachable or the end word is selected, otherwise settle it and
relax its edges. -/
def dijkstraLoopG (g : Graph) (e : Word) (st : DStateL) : DStateL :=
  if hU : st.unvisited = [] then st
  else
    match hM : scanMin st.dist st.unvisited none with
    | none => st
    | some cm =>
      if cm.1 = e then st
      else
        let visited' := cm.1 :: st.visited
        let dp := relaxEdges cm.1 cm.2 visited' (edgesOf g cm.1) st.dist st.prev
        dijkstraLoopG g e ⟨dp.1, dp.2, visited', st.unvisited.erase cm.1⟩
termination_by st.unvisited.length
decreasing_by
  have hmem : cm.1 ∈ st.unvisited := by
    obtain ⟨c, m⟩ := cm
    exact scanMin_mem hM
  rw [List.length_erase_of_mem hmem]
  have hne : st.unvisited.length ≠ 0 := fun h0 => hU (List.length_eq_zero.mp h0)
  omega

/-- `distances = {node: ∞ for node in graph}; distances[start] = 0;
previous_nodes = {node: None}; visited = set(); unvisited = set(graph)`. -/
def initStateG (g : Graph) (s : Word) : DStateL :=
  ⟨fun w => if w = s then some 0 else none, fun _ => none, [], nodeKeys g⟩

/-- Final Dijkstra state of the generator's `find_shortest_path`. -/
def finalStateG (g : Graph) (s e : Word) : DStateL :=
  dijkstraLoopG g e (initStateG g s)

/-- The distance recorded for the end word by the generator's Dijkstra. -/
def dijkstraDistG (g : Graph) (s e : Word) : Option ℚ :=
  (finalStateG g s e).dist e

/-- The generator's path reconstruction:
`while current is not None: path.insert(0, current); current = previous[current];
if current == start: path.insert(0, start); break` — with fuel standing for the
(provably sufficient) number of iterations. -/
def reconstructG (prev : Word → Option Word) (sW : Word) : ℕ → Word → List Word → List Word
  | 0, cur, acc => cur :: acc
  | n + 1, cur, acc =>
    match prev cur with
    | none => cur :: acc
    | some p => if p = sW then sW :: cur :: acc else reconstructG prev sW n p (cur :: acc)

theorem reconstructG_eq {prev : Word → Option Word} {a : Word} (hA : prev a = none) :
    ∀ (rest : List Word) (x : Word) (fuel : ℕ) (acc : List Word),
      chainToStart prev a (x :: rest) → rest.length < fuel →
      reconstructG prev a fuel x acc = (x :: rest).reverse ++ acc := by
  intro rest
  induction rest with
  | nil =>
    intro x fuel acc hch hfu
    obtain ⟨hx, hpx⟩ := hch
    subst hx
    cases fuel with
    | zero => cases hfu
    | succ n =>
      simp only [reconstructG, hpx]
      simp
  | cons y t ih =>
    intro x fuel acc hch hfu
    obtain ⟨hpx, hch'⟩ := hch
    cases fuel with
    | zero => cases hfu
    | succ n =>
      simp only [reconstructG, hpx]
      by_cases hy : y = a
      · subst hy
        cases t with
        | nil =>
          rw [if_pos rfl]
          simp
        | cons z t' =>
          obtain ⟨hpy, _⟩ := hch'
          rw [hA] at hpy
          cases hpy
      · rw [if_neg hy]
        have hlen : t.length < n := by
          simp only [List.length_cons] at hfu
          omega
        rw [ih y n (x :: acc) hch' hlen]
        simp

/-- `find_shortest_path(graph, start_node, end_node)` of
`scripts/generate_daily_pairs.py` (also used by `test_playtest_pairs_ab.py`):
Dijkstra by linear scan over the unvisited set, returning `[]` when either
word is absent or the end is unreachable. -/
def findShortestPathG (g : Graph) (s e : Word) : List Word :=
  if s ∈ nodeKeys g ∧ e ∈ nodeKeys g then
    match (finalStateG g s e).dist e with
    | none => []
    | some _ => reconstructG (finalStateG g s e).prev s (g.length + 1) e []
  else []

/-- Loop invariant of the generator's Dijkstra, relating the mutable state to
true reachability: settled words carry minimal distances, frontier edges are
relaxed, and every recorded distance is witnessed by its back-pointer chain. -/
structure LInv (g : Graph) (a e : Word) (st : DStateL) : Prop where
  partKeys : ∀ w, (w ∈ st.visited ∨ w ∈ st.unvisited) ↔ w ∈ nodeKeys g
  disj : ∀ w ∈ st.visited, w ∉ st.unvisited
  nodupU : st.unvisited.Nodup
  nodupV : st.visited.Nodup
  endUn : e ∈ st.unvisited
  distA : st.dist a = some 0
  prevA : st.prev a = none
  sound : ∀ v c, st.dist v = some c → Reaches g a v c
  settledMin : ∀ v ∈ st.visited, ∀ c', Reaches g a v c' → ∃ dv, st.dist v = some dv ∧ dv ≤ c'
  relaxed : ∀ u ∈ st.visited, ∀ v s, (v, s) ∈ edgesOf g u → v ∉ st.visited →
      ∀ du, st.dist u = some du → ∃ dv, st.dist v = some dv ∧ dv ≤ du + (1 - s)
  pathInv : ∀ v c, st.dist v = some c → ∃ rp, chainToStart st.prev a rp ∧
      rp.head? = some v ∧ (∀ x ∈ rp.tail, x ∈ st.visited) ∧
      costOf g rp.reverse = some c ∧ rp.length ≤ st.visited.length + 1

theorem LInv_init (g : Graph) (hWF : WFGraph g) (a e : Word)
    (ha : a ∈ nodeKeys g) (he : e ∈ nodeKeys g) : LInv g a e (initStateG g a) := by
  refine ⟨?_, ?_, ?_, ?_, ?_, ?_, ?_, ?_, ?_, ?_, ?_⟩
  · intro w
    simp [initStateG]
  · intro w hw
    simp [initStateG] at hw
  · exact hWF.1
  · exact List.nodup_nil
  · exact he
  · simp [initStateG]
  · rfl
  · intro v c hv
    simp only [initStateG] at hv
    by_cases hva : v = a
    · subst hva
      rw [if_pos rfl] at hv
      cases hv
      exact Reaches.refl ha
    · rw [if_neg hva] at hv
      cases hv
  · intro v hv
    simp [initStateG] at hv
  · intro u hu
    simp [initStateG] at hu
  · intro v c hv
    simp only [initStateG] at hv
    by_cases hva : v = a
    · subst hva
      rw [if_pos rfl] at hv
      cases hv
      refine ⟨[v], ⟨rfl, rfl⟩, rfl, ?_, rfl, ?_⟩
      · intro x hx
        simp at hx
      · simp [initStateG]
    · rw [if_neg hva] at hv
      cases hv

/-- When the scan selects a word of minimum finite distance among the
unvisited, that distance is minimal over all walks reaching it. -/
theorem scanned_minimal {g : Graph} (hWF : WFGraph g) {a e : Word} {st : DStateL}
    (hInv : LInv g a e st) {cur : Word} {m : ℚ} (hd : st.dist cur = some m)
    (hmin : ∀ n ∈ st.unvisited, ∀ d, st.dist n = some d → m ≤ d)
    (hcurNV : cur ∉ st.visited) :
    ∀ c', Reaches g a cur c' → m ≤ c' := by
  intro c' hr
  obtain ⟨w, ec, hw1, hw2, hw3, hw4⟩ := frontier_crossing g hWF a st.visited st.dist
    (fun w ec => st.dist w = some ec) hInv.settledMin
    (fun u hu v s hvs hv du hdu => by
      obtain ⟨dv, h1, h2⟩ := hInv.relaxed u hu v s hvs hv du hdu
      exact ⟨dv, h1, h2⟩)
    (fun _ => hInv.distA) cur c' hr hcurNV
  have hwU : w ∈ st.unvisited := ((hInv.partKeys w).mpr hw2).resolve_left hw1
  exact le_trans (hmin w hwU ec hw3) hw4

/-- Settling the scanned word preserves the invariant. -/
theorem LInv_settle {g : Graph} (hWF : WFGraph g) {a e : Word} {st : DStateL}
    (hInv : LInv g a e st) {cur : Word} {m : ℚ}
    (hM : scanMin st.dist st.unvisited none = some (cur, m)) (hne : cur ≠ e) :
    LInv g a e ⟨(relaxEdges cur m (cur :: st.visited) (edgesOf g cur) st.dist st.prev).1,
      (relaxEdges cur m (cur :: st.visited) (edgesOf g cur) st.dist st.prev).2,
      cur :: st.visited, st.unvisited.erase cur⟩ := by
  have hd : st.dist cur = some m := scanMin_dist hM
  have hmem : cur ∈ st.unvisited := scanMin_mem hM
  have hmin := scanMin_min hM
  have hcurNV : cur ∉ st.visited := fun h => hInv.disj cur h hmem
  have hcurK : cur ∈ nodeKeys g := (hInv.partKeys cur).mp (Or.inr hmem)
  have hm_min := scanned_minimal hWF hInv hd hmin hcurNV
  have hm_r : Reaches g a cur m := hInv.sound cur m hd
  have hm0 : (0 : ℚ) ≤ m := hm_r.nonneg hWF
  have hchar := relaxEdges_char cur m (cur :: st.visited) (edgesOf g cur) st.dist st.prev
  have hskip : ∀ w ∈ cur :: st.visited,
      (relaxEdges cur m (cur :: st.visited) (edgesOf g cur) st.dist st.prev).1 w = st.dist w ∧
      (relaxEdges cur m (cur :: st.visited) (edgesOf g cur) st.dist st.prev).2 w = st.prev w := by
    intro w hw
    rcases hchar w with h | ⟨h1, _⟩
    · exact h
    · exact absurd hw h1
  have haU : (relaxEdges cur m (cur :: st.visited) (edgesOf g cur) st.dist st.prev).1 a = st.dist a ∧
      (relaxEdges cur m (cur :: st.visited) (edgesOf g cur) st.dist st.prev).2 a = st.prev a := by
    rcases hchar a with h | ⟨_, _, s, hsedge, _, himpr⟩
    · exact h
    · exfalso
      have h1 := himpr 0 hInv.distA
      have h2 := hWF.cost_nonneg hsedge
      linarith
  have hcurEdgesNodup : ((edgesOf g cur).map Prod.fst).Nodup := by
    obtain ⟨n, hn⟩ := lookupNode_isSome_of_mem hcurK
    have := (hWF.2 (cur, n) (lookupNode_mem hn)).1
    simpa [edgesOf, hn] using this
  refine ⟨?_, ?_, ?_, ?_, ?_, ?_, ?_, ?_, ?_, ?_, ?_⟩ <;> dsimp only
  · intro w
    constructor
    · rintro (hw | hw)
      · rcases List.mem_cons.mp hw with he' | hv
        · exact he' ▸ hcurK
        · exact (hInv.partKeys w).mp (Or.inl hv)
      · exact (hInv.partKeys w).mp (Or.inr (List.mem_of_mem_erase hw))
    · intro hwk
      rcases (hInv.partKeys w).mpr hwk with hv | hu
      · exact Or.inl (List.mem_cons_of_mem _ hv)
      · by_cases hwc : w = cur
        · exact Or.inl (hwc ▸ List.mem_cons_self _ _)
        · exact Or.inr ((List.mem_erase_of_ne hwc).mpr hu)
  · intro w hw
    rcases List.mem_cons.mp hw with he' | hv
    · subst he'
      intro hcontra
      exact ((hInv.nodupU.mem_erase_iff).mp hcontra).1 rfl
    · intro hcontra
      exact hInv.disj w hv (List.mem_of_mem_erase hcontra)
  · exact hInv.nodupU.erase _
  · exact List.nodup_cons.mpr ⟨hcurNV, hInv.nodupV⟩
  · exact (List.mem_erase_of_ne (Ne.symm hne)).mpr hInv.endUn
  · rw [haU.1]
    exact hInv.distA
  · rw [haU.2]
    exact hInv.prevA
  · intro v c hv
    rcases hchar v with ⟨h1, _⟩ | ⟨_, _, s, hsedge, hupd, _⟩
    · exact hInv.sound v c (h1 ▸ hv)
    · rw [hupd] at hv
      simp only [Option.some.injEq] at hv
      subst hv
      exact Reaches.step hm_r hsedge
  · intro v hv c' hr
    rcases List.mem_cons.mp hv with he' | hvv
    · refine ⟨m, ?_, hm_min c' (he' ▸ hr)⟩
      rw [(hskip v hv).1, he']
      exact hd
    · obtain ⟨dv, h1, h2⟩ := hInv.settledMin v hvv c' hr
      refine ⟨dv, ?_, h2⟩
      rw [(hskip v (List.mem_cons_of_mem _ hvv)).1]
      exact h1
  · intro u hu v s hvs hvn du hdu
    rcases List.mem_cons.mp hu with he' | huv
    · have hdu' : st.dist u = some du := by
        rw [← (hskip u hu).1]
        exact hdu
      have hcurdu : st.dist cur = some du := he' ▸ hdu'
      have hmu : du = m := by
        rw [hd] at hcurdu
        exact (Option.some.inj hcurdu).symm
      rw [hmu]
      exact relaxEdges_bound cur m (cur :: st.visited) (edgesOf g cur) st.dist st.prev v s
        (he' ▸ hvs) hvn
    · have hvnv : v ∉ st.visited := fun h => hvn (List.mem_cons_of_mem _ h)
      have hduo : st.dist u = some du := by
        rw [← (hskip u (List.mem_cons_of_mem _ huv)).1]
        exact hdu
      obtain ⟨dv, hdv, hle⟩ := hInv.relaxed u huv v s hvs hvnv du hduo
      obtain ⟨dv', hdv', hle'⟩ := relaxEdges_mono cur m (cur :: st.visited) (edgesOf g cur)
        st.dist st.prev v dv hdv
      exact ⟨dv', hdv', le_trans hle' hle⟩
  · intro v c hv
    rcases hchar v with ⟨h1, h2⟩ | ⟨hnv, h2, s, hsedge, hupd, _⟩
    · obtain ⟨rp, hch, hhd, htl, hcost, hlen⟩ := hInv.pathInv v c (h1 ▸ hv)
      cases rp with
      | nil => cases hhd
      | cons r0 rt =>
        simp only [List.head?_cons, Option.some.injEq] at hhd
        have hhd2 := hhd.symm
        subst hhd2
        refine ⟨v :: rt, ?_, rfl, ?_, hcost, ?_⟩
        · refine chainToStart_congr (v :: rt) ?_ hch
          intro x hx
          rcases List.mem_cons.mp hx with hx0 | hxt
          · subst hx0
            exact h2
          · exact (hskip x (List.mem_cons_of_mem _ (htl x hxt))).2
        · intro x hx
          exact List.mem_cons_of_mem _ (htl x hx)
        · simp only [List.length_cons] at hlen ⊢
          omega
    · rw [hupd] at hv
      simp only [Option.some.injEq] at hv
      subst hv
      obtain ⟨rp, hch, hhd, htl, hcost, hlen⟩ := hInv.pathInv cur m hd
      cases rp with
      | nil => cases hhd
      | cons r0 rt =>
        simp only [List.head?_cons, Option.some.injEq] at hhd
        have hhd2 := hhd.symm
        subst hhd2
        have hagree : ∀ x ∈ cur :: rt,
            (relaxEdges cur m (cur :: st.visited) (edgesOf g cur) st.dist st.prev).2 x =
              st.prev x := by
          intro x hx
          rcases List.mem_cons.mp hx with hx0 | hxt
          · subst hx0
            exact (hskip x (List.mem_cons_self _ _)).2
          · exact (hskip x (List.mem_cons_of_mem _ (htl x hxt))).2
        refine ⟨v :: cur :: rt, ⟨h2, chainToStart_congr (cur :: rt) hagree hch⟩, rfl, ?_, ?_, ?_⟩
        · intro x hx
          rcases List.mem_cons.mp hx with hx0 | hxt
          · exact hx0 ▸ List.mem_cons_self _ _
          · exact List.mem_cons_of_mem _ (htl x hxt)
        · have hsim : edgeSim (edgesOf g cur) v = some s :=
            edgeSim_eq_of_mem hcurEdgesNodup hsedge
          have hlast : (cur :: rt).reverse.getLast? = some cur := by
            rw [List.getLast?_reverse]
            rfl
          have := costOf_append_edge (cur :: rt).reverse m cur v s hcost hlast hsim
          simpa [List.reverse_cons] using this
        · simp only [List.length_cons] at hlen ⊢
          omega

/-! Unfolding equations of the generator's Dijkstra loop. -/

theorem dijkstraLoopG_nil {g : Graph} {e : Word} {st : DStateL} (h : st.unvisited = []) :
    dijkstraLoopG g e st = st := by
  rw [dijkstraLoopG, dif_pos h]

theorem dijkstraLoopG_none {g : Graph} {e : Word} {st : DStateL} (hne : st.unvisited ≠ [])
    (h : scanMin st.dist st.unvisited none = none) : dijkstraLoopG g e st = st := by
  rw [dijkstraLoopG, dif_neg hne]
  split
  · rfl
  · rename_i cm heq
    rw [h] at heq
    cases heq

theorem dijkstraLoopG_break {g : Graph} {e : Word} {st : DStateL} {cur : Word} {m : ℚ}
    (hne : st.unvisited ≠ []) (h : scanMin st.dist st.unvisited none = some (cur, m))
    (hce : cur = e) : dijkstraLoopG g e st = st := by
  rw [dijkstraLoopG, dif_neg hne]
  split
  · rfl
  · rename_i cm heq
    rw [h] at heq
    cases heq
    rw [if_pos hce]

theorem dijkstraLoopG_step {g : Graph} {e : Word} {st : DStateL} {cur : Word} {m : ℚ}
    (hne : st.unvisited ≠ []) (h : scanMin st.dist st.unvisited none = some (cur, m))
    (hce : cur ≠ e) : dijkstraLoopG g e st =
      dijkstraLoopG g e
        ⟨(relaxEdges cur m (cur :: st.visited) (edgesOf g cur) st.dist st.prev).1,
         (relaxEdges cur m (cur :: st.visited) (edgesOf g cur) st.dist st.prev).2,
         cur :: st.visited, st.unvisited.erase cur⟩ := by
  rw [dijkstraLoopG, dif_neg hne]
  split
  · rename_i heq
    rw [h] at heq
    cases heq
  · rename_i cm heq
    rw [h] at heq
    cases heq
    rw [if_neg hce]

/-- The loop preserves the invariant and ends either with an all-unreachable
frontier or with a minimal recorded distance for the end word. -/
theorem dijkstraLoopG_spec (g : Graph) (hWF : WFGraph g) (a e : Word) :
    ∀ (n : ℕ) (st : DStateL), st.unvisited.length ≤ n → LInv g a e st →
      LInv g a e (dijkstraLoopG g e st) ∧
      ((∀ w ∈ (dijkstraLoopG g e st).unvisited, (dijkstraLoopG g e st).dist w = none) ∨
       (∃ d, (dijkstraLoopG g e st).dist e = some d ∧ ∀ c', Reaches g a e c' → d ≤ c')) := by
  intro n
  induction n with
  | zero =>
    intro st hlen hInv
    have hnil : st.unvisited = [] := List.length_eq_zero.mp (Nat.le_zero.mp hlen)
    exact absurd hInv.endUn (by rw [hnil]; simp)
  | succ n ih =>
    intro st hlen hInv
    by_cases hU : st.unvisited = []
    · exact absurd hInv.endUn (by rw [hU]; simp)
    · cases hM : scanMin st.dist st.unvisited none with
      | none =>
        rw [dijkstraLoopG_none hU hM]
        exact ⟨hInv, Or.inl (scanMin_none_spec hM)⟩
      | some cm =>
        obtain ⟨cur, m⟩ := cm
        by_cases hce : cur = e
        · rw [dijkstraLoopG_break hU hM hce]
          refine ⟨hInv, Or.inr ⟨m, ?_, ?_⟩⟩
          · rw [← hce]
            exact scanMin_dist hM
          · intro c' hr
            exact scanned_minimal hWF hInv (scanMin_dist hM) (scanMin_min hM)
              (fun h => hInv.disj cur h (scanMin_mem hM)) c' (hce.symm ▸ hr)
        · rw [dijkstraLoopG_step hU hM hce]
          have hset := LInv_settle hWF hInv hM hce
          have hlen' : (st.unvisited.erase cur).length ≤ n := by
            rw [List.length_erase_of_mem (scanMin_mem hM)]
            have hne0 : st.unvisited.length ≠ 0 := fun h0 => hU (List.length_eq_zero.mp h0)
            omega
          exact ih _ hlen' hset

theorem LInv.visited_le {g : Graph} {a e : Word} {st : DStateL} (hInv : LInv g a e st) :
    st.visited.length ≤ g.length := by
  have hsub : st.visited ⊆ nodeKeys g := fun w hw => (hInv.partKeys w).mp (Or.inl hw)
  have := List.Subperm.length_le (List.subperm_of_subset hInv.nodupV hsub)
  simpa [nodeKeys] using this

theorem chain_of_costOf {g : Graph} :
    ∀ (p : List Word) (c : ℚ), costOf g p = some c →
      List.Chain' (fun x y => ∃ s, (y, s) ∈ edgesOf g x) p := by
  intro p
  induction p with
  | nil => intro c h; simp [costOf] at h
  | cons x t ih =>
    intro c h
    cases t with
    | nil => simp
    | cons y t' =>
      simp only [costOf] at h
      cases hs : edgeSim (edgesOf g x) y with
      | none => rw [hs] at h; simp at h
      | some s =>
        rw [hs] at h
        cases hct : costOf g (y :: t') with
        | none => rw [hct] at h; simp at h
        | some cyt =>
          rw [List.chain'_cons]
          exact ⟨⟨s, mem_of_edgeSim hs⟩, ih cyt hct⟩

/-- Full functional correctness of the generator's `find_shortest_path`:
a returned nonempty path runs from `a` to `b` along edges of `g`, its cost is
the recorded Dijkstra distance of `b`, and no path has a smaller cost. -/
theorem findShortestPathG_correct (g : Graph) (hWF : WFGraph g) (a b : Word)
    (hne : findShortestPathG g a b ≠ []) :
    (findShortestPathG g a b).head? = some a ∧
    (findShortestPathG g a b).getLast? = some b ∧
    List.Chain' (fun x y => ∃ s, (y, s) ∈ edgesOf g x) (findShortestPathG g a b) ∧
    ∃ d, dijkstraDistG g a b = some d ∧
      costOf g (findShortestPathG g a b) = some d ∧
      ∀ q cq, q.head? = some a → q.getLast? = some b → costOf g q = some cq → d ≤ cq := by
  by_cases hg : a ∈ nodeKeys g ∧ b ∈ nodeKeys g
  · obtain ⟨hloopInv, hexit⟩ := dijkstraLoopG_spec g hWF a b
      (initStateG g a).unvisited.length (initStateG g a) le_rfl
      (LInv_init g hWF a b hg.1 hg.2)
    have hfinal : finalStateG g a b = dijkstraLoopG g b (initStateG g a) := rfl
    rw [← hfinal] at hloopInv hexit
    cases hdist : (finalStateG g a b).dist b with
    | none =>
      exfalso
      apply hne
      unfold findShortestPathG
      rw [if_pos hg, hdist]
    | some d =>
      have hmind : ∀ c', Reaches g a b c' → d ≤ c' := by
        rcases hexit with hall | ⟨d', hd', hmin⟩
        · exact absurd (hall b hloopInv.endUn) (by rw [hdist]; simp)
        · rw [hdist] at hd'
          cases hd'
          exact hmin
      obtain ⟨rp, hch, hhd, htl, hcost, hlen⟩ := hloopInv.pathInv b d hdist
      cases rp with
      | nil => cases hhd
      | cons r0 rt =>
        simp only [List.head?_cons, Option.some.injEq] at hhd
        have hhd2 := hhd.symm
        subst hhd2
        have hfuel : rt.length < g.length + 1 := by
          have h1 : (b :: rt).length ≤ (finalStateG g a b).visited.length + 1 := hlen
          have h2 := hloopInv.visited_le
          simp only [List.length_cons] at h1
          omega
        have hrec : reconstructG (finalStateG g a b).prev a (g.length + 1) b [] =
            (b :: rt).reverse ++ [] :=
          reconstructG_eq hloopInv.prevA rt b (g.length + 1) [] hch hfuel
        have hpath : findShortestPathG g a b = (b :: rt).reverse := by
          unfold findShortestPathG
          rw [if_pos hg, hdist, hrec]
          simp
        rw [hpath]
        refine ⟨?_, ?_, ?_, d, hdist, hcost, ?_⟩
        · rw [List.head?_reverse]
          exact chainToStart_getLast _ hch
        · rw [List.getLast?_reverse]
          rfl
        · exact chain_of_costOf _ d hcost
        · intro q cq hqh hql hqc
          exact hmind cq (reaches_of_costOf hWF q a b cq hg.1 hqh hql hqc)
  · exfalso
    apply hne
    unfold findShortestPathG
    rw [if_neg hg]

theorem findShortestPathG_absent (g : Graph) (a b : Word)
    (h : ¬(a ∈ nodeKeys g ∧ b ∈ nodeKeys g)) : findShortestPathG g a b = [] := by
  unfold findShortestPathG
  rw [if_neg h]

theorem findShortestPathG_unreachable (g : Graph) (hWF : WFGraph g) (a b : Word)
    (ha : a ∈ nodeKeys g) (hb : b ∈ nodeKeys g) (hur : ∀ c, ¬ Reaches g a b c) :
    findShortestPathG g a b = [] := by
  obtain ⟨hloopInv, _⟩ := dijkstraLoopG_spec g hWF a b
    (initStateG g a).unvisited.length (initStateG g a) le_rfl
    (LInv_init g hWF a b ha hb)
  have hfinal : finalStateG g a b = dijkstraLoopG g b (initStateG g a) := rfl
  rw [← hfinal] at hloopInv
  unfold findShortestPathG
  rw [if_pos ⟨ha, hb⟩]
  cases hdist : (finalStateG g a b).dist b with
  | none => rfl
  | some d => exact absurd (hloopInv.sound b d hdist) (hur d)

/-! `find_shortest_path(g, a, a)` returns `[a]`: the first scan selects `a`
(the only finite distance) and the loop breaks on `current == end_node`. -/

theorem scanMin_keep {dist : Word → Option ℚ} {a : Word} :
    ∀ l : List Word, (∀ w ∈ l, w ≠ a → dist w = none) → dist a = some 0 →
      scanMin dist l (some (a, 0)) = some (a, 0) := by
  intro l
  induction l with
  | nil => intro _ _; rfl
  | cons w ws ih =>
    intro h ha
    simp only [scanMin]
    by_cases hw : w = a
    · subst hw
      rw [stepAcc_some_acc ha]
      simp only [lt_self_iff_false, if_false]
      exact ih (fun x hx => h x (List.mem_cons_of_mem _ hx)) ha
    · rw [stepAcc_none (h w (List.mem_cons_self _ _) hw)]
      exact ih (fun x hx => h x (List.mem_cons_of_mem _ hx)) ha

theorem scanMin_unique {dist : Word → Option ℚ} {a : Word} :
    ∀ l : List Word, (∀ w ∈ l, w ≠ a → dist w = none) → dist a = some 0 →
      a ∈ l → scanMin dist l none = some (a, 0) := by
  intro l
  induction l with
  | nil => intro _ _ h; cases h
  | cons w ws ih =>
    intro h ha hmem
    simp only [scanMin]
    by_cases hw : w = a
    · subst hw
      rw [stepAcc_some_nil ha]
      exact scanMin_keep ws (fun x hx => h x (List.mem_cons_of_mem _ hx)) ha
    · rw [stepAcc_none (h w (List.mem_cons_self _ _) hw)]
      refine ih (fun x hx => h x (List.mem_cons_of_mem _ hx)) ha ?_
      rcases List.mem_cons.mp hmem with he | hm
      · exact absurd he.symm hw
      · exact hm

theorem findShortestPathG_self (g : Graph) (a : Word) (ha : a ∈ nodeKeys g) :
    findShortestPathG g a a = [a] ∧ dijkstraDistG g a a = some 0 := by
  have hUne : (initStateG g a).unvisited ≠ [] := by
    simp only [initStateG]
    intro h
    rw [h] at ha
    cases ha
  have hM : scanMin (initStateG g a).dist (initStateG g a).unvisited none = some (a, 0) := by
    apply scanMin_unique
    · intro w _ hw
      simp [initStateG, hw]
    · simp [initStateG]
    · exact ha
  have hbreak : dijkstraLoopG g a (initStateG g a) = initStateG g a :=
    dijkstraLoopG_break hUne hM rfl
  have hfinal : finalStateG g a a = initStateG g a := hbreak
  have hdista : (finalStateG g a a).dist a = some 0 := by
    rw [hfinal]
    simp [initStateG]
  constructor
  · unfold findShortestPathG
    rw [if_pos ⟨ha, ha⟩, hdista]
    rw [hfinal]
    simp [reconstructG, initStateG]
  · unfold dijkstraDistG
    exact hdista

/-!
## The solver's Dijkstra (`scripts/heuristic_solver.py`, `find_shortest_path`)

The Python version keeps a `heapq` priority queue of `(distance, word)` tuples
(lexicographic order, lazy deletion of stale entries).  The heap is modelled as
the list of its entries: `heappush` is `::`, `heappop` extracts a minimal entry
under the tuple order (Python compares `(d, w)` pairs lexicographically).  Only
tie-breaking among equal tuples depends on the heap's internal layout, and no
theorem below depends on a tie-break.  The unbounded `while pq:` loop is run on
fuel `1 + totalDeg g`, which the invariant `fuelBound` proves sufficient: when
fuel reaches zero the queue is already empty.
-/

/-- Python tuple order on heap entries `(distance, word)`. -/
def entryLE (x y : ℚ × Word) : Prop := x.1 < y.1 ∨ (x.1 = y.1 ∧ x.2 ≤ y.2)

instance (x y : ℚ × Word) : Decidable (entryLE x y) := by
  unfold entryLE
  infer_instance

theorem entryLE_refl (x : ℚ × Word) : entryLE x x := Or.inr ⟨rfl, le_refl _⟩

theorem entryLE_trans {x y z : ℚ × Word} (h1 : entryLE x y) (h2 : entryLE y z) :
    entryLE x z := by
  rcases h1 with h1 | ⟨h1a, h1b⟩
  · rcases h2 with h2 | ⟨h2a, _⟩
    · exact Or.inl (lt_trans h1 h2)
    · exact Or.inl (h2a ▸ h1)
  · rcases h2 with h2 | ⟨h2a, h2b⟩
    · exact Or.inl (h1a ▸ h2)
    · exact Or.inr ⟨h1a.trans h2a, le_trans h1b h2b⟩

theorem entryLE_total (x y : ℚ × Word) : entryLE x y ∨ entryLE y x := by
  rcases lt_trichotomy x.1 y.1 with h | h | h
  · exact Or.inl (Or.inl h)
  · rcases le_total x.2 y.2 with h2 | h2
    · exact Or.inl (Or.inr ⟨h, h2⟩)
    · exact Or.inr (Or.inr ⟨h.symm, h2⟩)
  · exact Or.inr (Or.inl h)

theorem entryLE_fst {x y : ℚ × Word} (h : entryLE x y) : x.1 ≤ y.1 := by
  rcases h with h | ⟨h, _⟩
  · exact le_of_lt h
  · exact le_of_eq h

def minStep (x : ℚ × Word) : Option (ℚ × Word) → ℚ × Word
  | none => x
  | some m => if entryLE x m then x else m

/-- The minimal entry of the heap (what `heapq.heappop` returns). -/
def minEntry : List (ℚ × Word) → Option (ℚ × Word)
  | [] => none
  | x :: xs => some (minStep x (minEntry xs))

theorem minEntry_eq_none {l : List (ℚ × Word)} (h : minEntry l = none) : l = [] := by
  cases l with
  | nil => rfl
  | cons x xs => simp [minEntry] at h

theorem minEntry_spec :
    ∀ (l : List (ℚ × Word)) (m : ℚ × Word), minEntry l = some m →
      m ∈ l ∧ ∀ p ∈ l, entryLE m p := by
  intro l
  induction l with
  | nil => intro m h; cases h
  | cons x xs ih =>
    intro m h
    simp only [minEntry, Option.some.injEq] at h
    cases hxs : minEntry xs with
    | none =>
      have hnil := minEntry_eq_none hxs
      subst hnil
      rw [hxs] at h
      simp only [minStep] at h
      subst h
      refine ⟨List.mem_cons_self _ _, ?_⟩
      intro p hp
      simp only [List.mem_singleton] at hp
      subst hp
      exact entryLE_refl _
    | some m' =>
      rw [hxs] at h
      simp only [minStep] at h
      obtain ⟨hmem', hmin'⟩ := ih m' hxs
      by_cases hle : entryLE x m'
      · rw [if_pos hle] at h
        subst h
        refine ⟨List.mem_cons_self _ _, ?_⟩
        intro p hp
        rcases List.mem_cons.mp hp with he | hm2
        · subst he
          exact entryLE_refl _
        · exact entryLE_trans hle (hmin' p hm2)
      · rw [if_neg hle] at h
        subst h
        refine ⟨List.mem_cons_of_mem _ hmem', ?_⟩
        intro p hp
        rcases List.mem_cons.mp hp with he | hm2
        · subst he
          exact (entryLE_total _ _).resolve_left hle
        · exact hmin' p hm2

/-- Removal of one (the first) occurrence of the popped entry. -/
def removeFirst (m : ℚ × Word) : List (ℚ × Word) → List (ℚ × Word)
  | [] => []
  | x :: xs => if x = m then xs else x :: removeFirst m xs

theorem removeFirst_length {m : ℚ × Word} :
    ∀ l : List (ℚ × Word), m ∈ l → (removeFirst m l).length + 1 = l.length := by
  intro l
  induction l with
  | nil => intro h; cases h
  | cons x xs ih =>
    intro h
    by_cases hx : x = m
    · simp [removeFirst, hx]
    · have hm : m ∈ xs := (List.mem_cons.mp h).resolve_left (fun he => hx he.symm)
      simp only [removeFirst, hx, if_false, List.length_cons]
      rw [← ih hm]

theorem removeFirst_subset {m x : ℚ × Word} :
    ∀ l : List (ℚ × Word), x ∈ removeFirst m l → x ∈ l := by
  intro l
  induction l with
  | nil => intro h; cases h
  | cons y ys ih =>
    intro h
    by_cases hy : y = m
    · rw [removeFirst, if_pos hy] at h
      exact List.mem_cons_of_mem _ h
    · rw [removeFirst, if_neg hy] at h
      rcases List.mem_cons.mp h with he | hm2
      · exact he ▸ List.mem_cons_self _ _
      · exact List.mem_cons_of_mem _ (ih hm2)

theorem mem_removeFirst_of_ne {m x : ℚ × Word} (hne : x ≠ m) :
    ∀ l : List (ℚ × Word), x ∈ l → x ∈ removeFirst m l := by
  intro l
  induction l with
  | nil => intro h; cases h
  | cons y ys ih =>
    intro h
    by_cases hy : y = m
    · rw [removeFirst, if_pos hy]
      rcases List.mem_cons.mp h with he | hm2
      · exact absurd (he.trans hy) hne
      · exact hm2
    · rw [removeFirst, if_neg hy]
      rcases List.mem_cons.mp h with he | hm2
      · exact he ▸ List.mem_cons_self _ _
      · exact List.mem_cons_of_mem _ (ih hm2)

/-- The relaxation loop of the solver's Dijkstra: like `relaxEdges`, but each
improvement also pushes `(distance, neighbor)` onto the heap. -/
def relaxH (cur : Word) (dcur : ℚ) (visited : List Word) :
    List (Word × ℚ) → (Word → Option ℚ) → (Word → Option Word) → List (ℚ × Word) →
    (Word → Option ℚ) × (Word → Option Word) × List (ℚ × Word)
  | [], dist, prev, pq => (dist, prev, pq)
  | (v, s) :: rest, dist, prev, pq =>
    if v ∈ visited then relaxH cur dcur visited rest dist prev pq
    else if improves (dist v) (dcur + (1 - s)) then
      relaxH cur dcur visited rest
        (fun w => if w = v then some (dcur + (1 - s)) else dist w)
        (fun w => if w = v then some cur else prev w)
        ((dcur + (1 - s), v) :: pq)
    else relaxH cur dcur visited rest dist prev pq

theorem relaxH_pq_mono (cur : Word) (dcur : ℚ) (visited : List Word) :
    ∀ (edges : List (Word × ℚ)) (dist : Word → Option ℚ) (prev : Word → Option Word)
      (pq : List (ℚ × Word)) (p : ℚ × Word), p ∈ pq →
      p ∈ (relaxH cur dcur visited edges dist prev pq).2.2 := by
  intro edges
  induction edges with
  | nil => intro dist prev pq p h; exact h
  | cons q rest ih =>
    intro dist prev pq p h
    obtain ⟨v, s⟩ := q
    by_cases hv : v ∈ visited
    · simp only [relaxH, if_pos hv]
      exact ih dist prev pq p h
    · by_cases himp : improves (dist v) (dcur + (1 - s))
      · simp only [relaxH, if_neg hv, if_pos himp]
        exact ih _ _ _ p (List.mem_cons_of_mem _ h)
      · simp only [relaxH, if_neg hv, if_neg himp]
        exact ih dist prev pq p h

/-- Pointwise characterization of `relaxH`, including the pushed heap entry. -/
theorem relaxH_char (cur : Word) (dcur : ℚ) (visited : List Word) :
    ∀ (edges : List (Word × ℚ)) (dist : Word → Option ℚ) (prev : Word → Option Word)
      (pq : List (ℚ × Word)) (w : Word),
      ((relaxH cur dcur visited edges dist prev pq).1 w = dist w ∧
       (relaxH cur dcur visited edges dist prev pq).2.1 w = prev w) ∨
      (w ∉ visited ∧ (relaxH cur dcur visited edges dist prev pq).2.1 w = some cur ∧
       ∃ s, (w, s) ∈ edges ∧
         (relaxH cur dcur visited edges dist prev pq).1 w = some (dcur + (1 - s)) ∧
         (dcur + (1 - s), w) ∈ (relaxH cur dcur visited edges dist prev pq).2.2 ∧
         ∀ dv, dist w = some dv → dcur + (1 - s) < dv) := by
  intro edges
  induction edges with
  | nil => intro dist prev pq w; exact Or.inl ⟨rfl, rfl⟩
  | cons q rest ih =>
    intro dist prev pq w
    obtain ⟨v, s⟩ := q
    by_cases hv : v ∈ visited
    · simp only [relaxH, if_pos hv]
      rcases ih dist prev pq w with h | ⟨h1, h2, s', h3, h4, h5, h6⟩
      · exact Or.inl h
      · exact Or.inr ⟨h1, h2, s', List.mem_cons_of_mem _ h3, h4, h5, h6⟩
    · by_cases himp : improves (dist v) (dcur + (1 - s))
      · simp only [relaxH, if_neg hv, if_pos himp]
        rcases ih (fun w => if w = v then some (dcur + (1 - s)) else dist w)
            (fun w => if w = v then some cur else prev w)
            ((dcur + (1 - s), v) :: pq) w with ⟨h1, h2⟩ | ⟨h1, h2, s', h3, h4, h5, h6⟩
        · by_cases hw : w = v
          · subst hw
            refine Or.inr ⟨hv, ?_, s, List.mem_cons_self _ _, ?_, ?_, ?_⟩
            · rw [h2]; simp
            · rw [h1]; simp
            · exact relaxH_pq_mono cur dcur visited rest _ _ _ _ (List.mem_cons_self _ _)
            · intro dv hdv'
              exact himp dv hdv'
          · exact Or.inl ⟨by rw [h1]; simp [hw], by rw [h2]; simp [hw]⟩
        · by_cases hw : w = v
          · subst hw
            refine Or.inr ⟨h1, h2, s', List.mem_cons_of_mem _ h3, h4, h5, ?_⟩
            intro dv hdv'
            have h6' := h6 (dcur + (1 - s)) (by simp)
            exact lt_trans h6' (himp dv hdv')
          · refine Or.inr ⟨h1, h2, s', List.mem_cons_of_mem _ h3, h4, h5, ?_⟩
            intro dv hdv'
            exact h6 dv (by simp [hw, hdv'])
      · simp only [relaxH, if_neg hv, if_neg himp]
        rcases ih dist prev pq w with h | ⟨h1, h2, s', h3, h4, h5, h6⟩
        · exact Or.inl h
        · exact Or.inr ⟨h1, h2, s', List.mem_cons_of_mem _ h3, h4, h5, h6⟩

theorem relaxH_mono (cur : Word) (dcur : ℚ) (visited : List Word)
    (edges : List (Word × ℚ)) (dist : Word → Option ℚ) (prev : Word → Option Word)
    (pq : List (ℚ × Word)) (w : Word) (dw : ℚ) (hdw : dist w = some dw) :
    ∃ dw', (relaxH cur dcur visited edges dist prev pq).1 w = some dw' ∧ dw' ≤ dw := by
  rcases relaxH_char cur dcur visited edges dist prev pq w with ⟨h1, _⟩ |
    ⟨_, _, s, _, h4, _, h6⟩
  · exact ⟨dw, by rw [h1, hdw], le_refl dw⟩
  · exact ⟨dcur + (1 - s), h4, le_of_lt (h6 dw hdw)⟩

theorem relaxH_bound (cur : Word) (dcur : ℚ) (visited : List Word) :
    ∀ (edges : List (Word × ℚ)) (dist : Word → Option ℚ) (prev : Word → Option Word)
      (pq : List (ℚ × Word)) (v : Word) (s : ℚ), (v, s) ∈ edges → v ∉ visited →
      ∃ dv, (relaxH cur dcur visited edges dist prev pq).1 v = some dv ∧
        dv ≤ dcur + (1 - s) := by
  intro edges
  induction edges with
  | nil => intro dist prev pq v s h; simp at h
  | cons q rest ih =>
    intro dist prev pq v s hmem hnv
    obtain ⟨v0, s0⟩ := q
    rcases List.mem_cons.mp hmem with he | hm
    · cases he
      by_cases himp : improves (dist v) (dcur + (1 - s))
      · simp only [relaxH, if_neg hnv, if_pos himp]
        obtain ⟨dw', h1, h2⟩ := relaxH_mono cur dcur visited rest
          (fun w => if w = v then some (dcur + (1 - s)) else dist w)
          (fun w => if w = v then some cur else prev w)
          ((dcur + (1 - s), v) :: pq) v (dcur + (1 - s)) (by simp)
        exact ⟨dw', h1, h2⟩
      · simp only [relaxH, if_neg hnv, if_neg himp]
        simp only [improves, not_forall] at himp
        obtain ⟨dv0, hdv0, hnlt⟩ := himp
        obtain ⟨dw', h1, h2⟩ := relaxH_mono cur dcur visited rest dist prev pq v dv0 hdv0
        exact ⟨dw', h1, le_trans h2 (not_lt.mp hnlt)⟩
    · by_cases hv0 : v0 ∈ visited
      · simp only [relaxH, if_pos hv0]
        exact ih dist prev pq v s hm hnv
      · by_cases himp : improves (dist v0) (dcur + (1 - s0))
        · simp only [relaxH, if_neg hv0, if_pos himp]
          exact ih _ _ _ v s hm hnv
        · simp only [relaxH, if_neg hv0, if_neg himp]
          exact ih dist prev pq v s hm hnv

/-- Every final heap entry is an old entry or a freshly pushed relaxation. -/
theorem relaxH_pq_new (cur : Word) (dcur : ℚ) (visited : List Word) :
    ∀ (edges : List (Word × ℚ)) (dist : Word → Option ℚ) (prev : Word → Option Word)
      (pq : List (ℚ × Word)) (p : ℚ × Word),
      p ∈ (relaxH cur dcur visited edges dist prev pq).2.2 →
      p ∈ pq ∨ (∃ s, (p.2, s) ∈ edges ∧ p.1 = dcur + (1 - s) ∧ p.2 ∉ visited ∧
        ∃ dv, (relaxH cur dcur visited edges dist prev pq).1 p.2 = some dv ∧ dv ≤ p.1) := by
  intro edges
  induction edges with
  | nil => intro dist prev pq p h; exact Or.inl h
  | cons q rest ih =>
    intro dist prev pq p h
    obtain ⟨v, s⟩ := q
    by_cases hv : v ∈ visited
    · simp only [relaxH, if_pos hv] at h ⊢
      rcases ih dist prev pq p h with h1 | ⟨s', h1, h2, h3, h4⟩
      · exact Or.inl h1
      · exact Or.inr ⟨s', List.mem_cons_of_mem _ h1, h2, h3, h4⟩
    · by_cases himp : improves (dist v) (dcur + (1 - s))
      · simp only [relaxH, if_neg hv, if_pos himp] at h ⊢
        rcases ih (fun w => if w = v then some (dcur + (1 - s)) else dist w)
            (fun w => if w = v then some cur else prev w)
            ((dcur + (1 - s), v) :: pq) p h with h1 | ⟨s', h1, h2, h3, h4⟩
        · rcases List.mem_cons.mp h1 with he | hm
          · subst he
            refine Or.inr ⟨s, List.mem_cons_self _ _, rfl, hv, ?_⟩
            obtain ⟨dw', hw1, hw2⟩ := relaxH_mono cur dcur visited rest
              (fun w => if w = v then some (dcur + (1 - s)) else dist w)
              (fun w => if w = v then some cur else prev w)
              ((dcur + (1 - s), v) :: pq) v (dcur + (1 - s)) (by simp)
            exact ⟨dw', hw1, hw2⟩
          · exact Or.inl hm
        · exact Or.inr ⟨s', List.mem_cons_of_mem _ h1, h2, h3, h4⟩
      · simp only [relaxH, if_neg hv, if_neg himp] at h ⊢
        rcases ih dist prev pq p h with h1 | ⟨s', h1, h2, h3, h4⟩
        · exact Or.inl h1
        · exact Or.inr ⟨s', List.mem_cons_of_mem _ h1, h2, h3, h4⟩

theorem relaxH_pq_len (cur : Word) (dcur : ℚ) (visited : List Word) :
    ∀ (edges : List (Word × ℚ)) (dist : Word → Option ℚ) (prev : Word → Option Word)
      (pq : List (ℚ × Word)),
      (relaxH cur dcur visited edges dist prev pq).2.2.length ≤ pq.length + edges.length := by
  intro edges
  induction edges with
  | nil => intro dist prev pq; exact Nat.le_refl _
  | cons q rest ih =>
    intro dist prev pq
    obtain ⟨v, s⟩ := q
    by_cases hv : v ∈ visited
    · simp only [relaxH, if_pos hv, List.length_cons]
      exact le_trans (ih dist prev pq) (by omega)
    · by_cases himp : improves (dist v) (dcur + (1 - s))
      · simp only [relaxH, if_neg hv, if_pos himp, List.length_cons]
        have := ih (fun w => if w = v then some (dcur + (1 - s)) else dist w)
          (fun w => if w = v then some cur else prev w) ((dcur + (1 - s), v) :: pq)
        simp only [List.length_cons] at this
        omega
      · simp only [relaxH, if_neg hv, if_neg himp, List.length_cons]
        exact le_trans (ih dist prev pq) (by omega)

/-- Sum of `f` over the listed words not yet visited. -/
def sumSkip (f : Word → ℕ) (visited : List Word) : List Word → ℕ
  | [] => 0
  | w :: ws => (if w ∈ visited then 0 else f w) + sumSkip f visited ws

theorem sumSkip_out {f : Word → ℕ} {u : Word} {visited : List Word} :
    ∀ l : List Word, u ∉ l → sumSkip f (u :: visited) l = sumSkip f visited l := by
  intro l
  induction l with
  | nil => intro _; rfl
  | cons w ws ih =>
    intro h
    have hwu : w ≠ u := fun he => h (he ▸ List.mem_cons_self _ _)
    have hmem : (w ∈ u :: visited) ↔ (w ∈ visited) := by
      constructor
      · intro hw
        exact (List.mem_cons.mp hw).resolve_left hwu
      · exact List.mem_cons_of_mem _
    simp only [sumSkip]
    rw [ih (fun hm => h (List.mem_cons_of_mem _ hm))]
    by_cases hwv : w ∈ visited
    · rw [if_pos hwv, if_pos (hmem.mpr hwv)]
    · rw [if_neg hwv, if_neg (fun hc => hwv (hmem.mp hc))]

theorem sumSkip_cons {f : Word → ℕ} {u : Word} {visited : List Word} :
    ∀ l : List Word, l.Nodup → u ∈ l → u ∉ visited →
      sumSkip f (u :: visited) l + f u = sumSkip f visited l := by
  intro l
  induction l with
  | nil => intro _ h; cases h
  | cons w ws ih =>
    intro hnd hmem hnv
    rcases List.mem_cons.mp hmem with he | hm
    · subst he
      have hout : u ∉ ws := (List.nodup_cons.mp hnd).1
      simp only [sumSkip]
      rw [sumSkip_out ws hout]
      rw [if_pos (List.mem_cons_self _ _), if_neg hnv]
      omega
    · have hwu : w ≠ u := by
        intro he
        exact (List.nodup_cons.mp hnd).1 (he ▸ hm)
      simp only [sumSkip]
      rw [← ih (List.nodup_cons.mp hnd).2 hm hnv]
      have hmem2 : (w ∈ u :: visited) ↔ (w ∈ visited) := by
        constructor
        · intro hw
          exact (List.mem_cons.mp hw).resolve_left hwu
        · exact List.mem_cons_of_mem _
      by_cases hwv : w ∈ visited
      · rw [if_pos hwv, if_pos (hmem2.mpr hwv)]
        omega
      · rw [if_neg hwv, if_neg (fun hc => hwv (hmem2.mp hc))]
        omega

/-- Remaining relaxation work: degrees of unvisited graph words. -/
def degSumOver (g : Graph) (visited : List Word) : ℕ :=
  sumSkip (fun w => (edgesOf g w).length) visited (nodeKeys g)

/-- Total number of edges of the graph (an upper bound on heap pushes). -/
def totalDeg (g : Graph) : ℕ := degSumOver g []

/-- Mutable state of the solver's `find_shortest_path`:
`distances` / `previous` / `visited` / `pq`. -/
structure DStateH where
  dist : Word → Option ℚ
  prev : Word → Option Word
  visited : List Word
  pq : List (ℚ × Word)

/-- The `while pq:` loop of the solver's `find_shortest_path`: pop the minimal
entry, skip stale entries, break once the end word is settled, otherwise relax
the popped word's edges (pushing improved neighbors). -/
def heapLoop (g : Graph) (e : Word) : ℕ → DStateH → DStateH
  | 0, st => st
  | fuel + 1, st =>
    match minEntry st.pq with
    | none => st
    | some du =>
      if du.2 ∈ st.visited then
        heapLoop g e fuel ⟨st.dist, st.prev, st.visited, removeFirst du st.pq⟩
      else
        if du.2 = e then ⟨st.dist, st.prev, du.2 :: st.visited, removeFirst du st.pq⟩
        else
          heapLoop g e fuel
            ⟨(relaxH du.2 du.1 (du.2 :: st.visited) (edgesOf g du.2) st.dist st.prev
                (removeFirst du st.pq)).1,
             (relaxH du.2 du.1 (du.2 :: st.visited) (edgesOf g du.2) st.dist st.prev
                (removeFirst du st.pq)).2.1,
             du.2 :: st.visited,
             (relaxH du.2 du.1 (du.2 :: st.visited) (edgesOf g du.2) st.dist st.prev
                (removeFirst du st.pq)).2.2⟩

theorem heapLoop_pq_nil {g : Graph} {e : Word} {fuel : ℕ} {st : DStateH}
    (h : minEntry st.pq = none) : heapLoop g e (fuel + 1) st = st := by
  simp only [heapLoop]
  split
  · rfl
  · rename_i du heq
    rw [h] at heq
    cases heq

theorem heapLoop_skip {g : Graph} {e : Word} {fuel : ℕ} {st : DStateH} {du : ℚ × Word}
    (h : minEntry st.pq = some du) (hv : du.2 ∈ st.visited) :
    heapLoop g e (fuel + 1) st =
      heapLoop g e fuel ⟨st.dist, st.prev, st.visited, removeFirst du st.pq⟩ := by
  simp only [heapLoop]
  split
  · rename_i heq
    rw [h] at heq
    cases heq
  · rename_i du' heq
    rw [h] at heq
    cases heq
    rw [if_pos hv]

theorem heapLoop_break {g : Graph} {e : Word} {fuel : ℕ} {st : DStateH} {du : ℚ × Word}
    (h : minEntry st.pq = some du) (hv : du.2 ∉ st.visited) (he : du.2 = e) :
    heapLoop g e (fuel + 1) st = ⟨st.dist, st.prev, du.2 :: st.visited, removeFirst du st.pq⟩ := by
  simp only [heapLoop]
  split
  · rename_i heq
    rw [h] at heq
    cases heq
  · rename_i du' heq
    rw [h] at heq
    cases heq
    rw [if_neg hv, if_pos he]

theorem heapLoop_settle {g : Graph} {e : Word} {fuel : ℕ} {st : DStateH} {du : ℚ × Word}
    (h : minEntry st.pq = some du) (hv : du.2 ∉ st.visited) (he : du.2 ≠ e) :
    heapLoop g e (fuel + 1) st = heapLoop g e fuel
      ⟨(relaxH du.2 du.1 (du.2 :: st.visited) (edgesOf g du.2) st.dist st.prev
          (removeFirst du st.pq)).1,
       (relaxH du.2 du.1 (du.2 :: st.visited) (edgesOf g du.2) st.dist st.prev
          (removeFirst du st.pq)).2.1,
       du.2 :: st.visited,
       (relaxH du.2 du.1 (du.2 :: st.visited) (edgesOf g du.2) st.dist st.prev
          (removeFirst du st.pq)).2.2⟩ := by
  simp only [heapLoop]
  split
  · rename_i heq
    rw [h] at heq
    cases heq
  · rename_i du' heq
    rw [h] at heq
    cases heq
    rw [if_neg hv, if_neg he]

/-- Loop invariant of the solver's Dijkstra: lazy-deletion variant of `LInv`.
Each unvisited word with a recorded distance has a live heap entry at exactly
that distance (`pqCover`), and `fuelBound` certifies termination within the
remaining fuel. -/
structure HInv (g : Graph) (a e : Word) (fuel : ℕ) (st : DStateH) : Prop where
  visitedKeys : ∀ w ∈ st.visited, w ∈ nodeKeys g
  nodupV : st.visited.Nodup
  distA : st.dist a = some 0
  prevA : st.prev a = none
  sound : ∀ v c, st.dist v = some c → Reaches g a v c
  pqKeys : ∀ p ∈ st.pq, p.2 ∈ nodeKeys g
  pqSound : ∀ p ∈ st.pq, ∃ dv, st.dist p.2 = some dv ∧ dv ≤ p.1
  pqCover : ∀ v, v ∉ st.visited → ∀ dv, st.dist v = some dv → (dv, v) ∈ st.pq
  settledMin : ∀ v ∈ st.visited, ∀ c', Reaches g a v c' → ∃ dv, st.dist v = some dv ∧ dv ≤ c'
  relaxed : ∀ u ∈ st.visited, ∀ v s, (v, s) ∈ edgesOf g u → v ∉ st.visited →
      ∀ du, st.dist u = some du → ∃ dv, st.dist v = some dv ∧ dv ≤ du + (1 - s)
  pathInv : ∀ v c, st.dist v = some c → ∃ rp, chainToStart st.prev a rp ∧
      rp.head? = some v ∧ (∀ x ∈ rp.tail, x ∈ st.visited) ∧
      costOf g rp.reverse = some c ∧ rp.length ≤ st.visited.length + 1
  fuelBound : st.pq.length + degSumOver g st.visited ≤ fuel

/-- What matters at the end of the solver's Dijkstra loop: each recorded
distance is realized by the back-pointer chain, the end word's distance (when
recorded) is minimal, and an unrecorded end distance means unreachable. -/
def HPost (g : Graph) (a e : Word) (st : DStateH) : Prop :=
  (∀ v c, st.dist v = some c → ∃ rp, chainToStart st.prev a rp ∧ rp.head? = some v ∧
     costOf g rp.reverse = some c ∧ rp.length ≤ g.length + 1) ∧
  (∀ d, st.dist e = some d → ∀ c', Reaches g a e c' → d ≤ c') ∧
  (st.dist e = none → ∀ c', ¬ Reaches g a e c')

theorem HInv.visited_bound {g : Graph} (hWF : WFGraph g) {a e : Word} {fuel : ℕ} {st : DStateH}
    (hInv : HInv g a e fuel st) : st.visited.length ≤ g.length := by
  have := List.Subperm.length_le (List.subperm_of_subset hInv.nodupV hInv.visitedKeys)
  simpa [nodeKeys] using this

/-- Minimality of recorded distances through the heap when the queue is empty
or when the popped entry is minimal: the frontier-crossing argument with the
heap entries as candidates. -/
theorem HInv.frontier {g : Graph} (hWF : WFGraph g) {a e : Word} {fuel : ℕ} {st : DStateH}
    (hInv : HInv g a e fuel st) :
    ∀ z c, Reaches g a z c → z ∉ st.visited →
      ∃ w ec, w ∉ st.visited ∧ w ∈ nodeKeys g ∧ (ec, w) ∈ st.pq ∧ ec ≤ c := by
  intro z c hr hz
  exact frontier_crossing g hWF a st.visited st.dist (fun w ec => (ec, w) ∈ st.pq)
    hInv.settledMin
    (fun u hu v s hvs hv du hdu => by
      obtain ⟨dv, h1, h2⟩ := hInv.relaxed u hu v s hvs hv du hdu
      exact ⟨dv, hInv.pqCover v hv dv h1, h2⟩)
    (fun ha => hInv.pqCover a ha 0 hInv.distA) z c hr hz

/-- With an empty queue the invariant already implies the postcondition. -/
theorem HInv.post_of_pq_nil {g : Graph} (hWF : WFGraph g) {a e : Word} {fuel : ℕ}
    {st : DStateH} (hInv : HInv g a e fuel st) (hnil : st.pq = []) : HPost g a e st := by
  refine ⟨?_, ?_, ?_⟩
  · intro v c hv
    obtain ⟨rp, h1, h2, _, h4, h5⟩ := hInv.pathInv v c hv
    exact ⟨rp, h1, h2, h4, le_trans h5 (by have := hInv.visited_bound hWF; omega)⟩
  · intro d hd c' hr
    by_cases hev : e ∈ st.visited
    · obtain ⟨dv, h1, h2⟩ := hInv.settledMin e hev c' hr
      rw [hd] at h1
      cases h1
      exact h2
    · have := hInv.pqCover e hev d hd
      rw [hnil] at this
      cases this
  · intro hd c' hr
    by_cases hev : e ∈ st.visited
    · obtain ⟨dv, h1, _⟩ := hInv.settledMin e hev c' hr
      rw [hd] at h1
      cases h1
    · obtain ⟨w, ec, _, _, hmem, _⟩ := hInv.frontier hWF e c' hr hev
      rw [hnil] at hmem
      cases hmem

/-- The popped minimal entry for an unvisited word carries exactly the recorded
distance, and that distance is globally minimal. -/
theorem HInv.pop_min {g : Graph} (hWF : WFGraph g) {a e : Word} {fuel : ℕ} {st : DStateH}
    (hInv : HInv g a e fuel st) {du : ℚ × Word} (hpop : minEntry st.pq = some du)
    (hnv : du.2 ∉ st.visited) :
    st.dist du.2 = some du.1 ∧ (∀ c', Reaches g a du.2 c' → du.1 ≤ c') := by
  obtain ⟨hmem, hmin⟩ := minEntry_spec st.pq du hpop
  obtain ⟨dv, hdv, hle⟩ := hInv.pqSound du hmem
  have hcov := hInv.pqCover du.2 hnv dv hdv
  have hminc := hmin (dv, du.2) hcov
  have hdveq : dv = du.1 := le_antisymm hle (entryLE_fst hminc)
  constructor
  · rw [hdv, hdveq]
  · intro c' hr
    obtain ⟨w, ec, _, _, hwmem, hwle⟩ := hInv.frontier hWF du.2 c' hr hnv
    exact le_trans (entryLE_fst (hmin (ec, w) hwmem)) hwle

/-- Skipping a stale entry preserves the invariant with one unit less fuel. -/
theorem HInv.skip {g : Graph} {a e : Word} {fuel : ℕ} {st : DStateH}
    (hInv : HInv g a e (fuel + 1) st) {du : ℚ × Word} (hpop : minEntry st.pq = some du)
    (hv : du.2 ∈ st.visited) :
    HInv g a e fuel ⟨st.dist, st.prev, st.visited, removeFirst du st.pq⟩ := by
  have hmem := (minEntry_spec st.pq du hpop).1
  refine ⟨hInv.visitedKeys, hInv.nodupV, hInv.distA, hInv.prevA, hInv.sound, ?_, ?_, ?_,
    hInv.settledMin, hInv.relaxed, hInv.pathInv, ?_⟩
  · intro p hp
    exact hInv.pqKeys p (removeFirst_subset _ hp)
  · intro p hp
    exact hInv.pqSound p (removeFirst_subset _ hp)
  · intro v hnv dv hdv
    have hne : (dv, v) ≠ du := by
      intro he
      rw [← he] at hv
      exact hnv hv
    exact mem_removeFirst_of_ne hne _ (hInv.pqCover v hnv dv hdv)
  · have hlen := removeFirst_length st.pq hmem
    have := hInv.fuelBound
    dsimp only
    omega

/-- Settling the popped word preserves the invariant with one unit less fuel. -/
theorem HInv.settle {g : Graph} (hWF : WFGraph g) {a e : Word} {fuel : ℕ} {st : DStateH}
    (hInv : HInv g a e (fuel + 1) st) {du : ℚ × Word} (hpop : minEntry st.pq = some du)
    (hnv : du.2 ∉ st.visited) :
    HInv g a e fuel
      ⟨(relaxH du.2 du.1 (du.2 :: st.visited) (edgesOf g du.2) st.dist st.prev
          (removeFirst du st.pq)).1,
       (relaxH du.2 du.1 (du.2 :: st.visited) (edgesOf g du.2) st.dist st.prev
          (removeFirst du st.pq)).2.1,
       du.2 :: st.visited,
       (relaxH du.2 du.1 (du.2 :: st.visited) (edgesOf g du.2) st.dist st.prev
          (removeFirst du st.pq)).2.2⟩ := by
  obtain ⟨hmemE, hminE⟩ := minEntry_spec st.pq du hpop
  obtain ⟨hdcur, hm_min⟩ := hInv.pop_min hWF hpop hnv
  have hcurK : du.2 ∈ nodeKeys g := hInv.pqKeys du hmemE
  have hm_r : Reaches g a du.2 du.1 := hInv.sound du.2 du.1 hdcur
  have hm0 : (0 : ℚ) ≤ du.1 := hm_r.nonneg hWF
  have hchar := relaxH_char du.2 du.1 (du.2 :: st.visited) (edgesOf g du.2) st.dist st.prev
    (removeFirst du st.pq)
  have hskip : ∀ w ∈ du.2 :: st.visited,
      (relaxH du.2 du.1 (du.2 :: st.visited) (edgesOf g du.2) st.dist st.prev
        (removeFirst du st.pq)).1 w = st.dist w ∧
      (relaxH du.2 du.1 (du.2 :: st.visited) (edgesOf g du.2) st.dist st.prev
        (removeFirst du st.pq)).2.1 w = st.prev w := by
    intro w hw
    rcases hchar w with h | ⟨h1, _⟩
    · exact h
    · exact absurd hw h1
  have haU : (relaxH du.2 du.1 (du.2 :: st.visited) (edgesOf g du.2) st.dist st.prev
        (removeFirst du st.pq)).1 a = st.dist a ∧
      (relaxH du.2 du.1 (du.2 :: st.visited) (edgesOf g du.2) st.dist st.prev
        (removeFirst du st.pq)).2.1 a = st.prev a := by
    rcases hchar a with h | ⟨_, _, s, hsedge, _, _, himpr⟩
    · exact h
    · exfalso
      have h1 := himpr 0 hInv.distA
      have h2 := hWF.cost_nonneg hsedge
      linarith
  refine ⟨?_, ?_, ?_, ?_, ?_, ?_, ?_, ?_, ?_, ?_, ?_, ?_⟩ <;> dsimp only
  · intro w hw
    rcases List.mem_cons.mp hw with he' | hv
    · exact he' ▸ hcurK
    · exact hInv.visitedKeys w hv
  · exact List.nodup_cons.mpr ⟨hnv, hInv.nodupV⟩
  · rw [haU.1]
    exact hInv.distA
  · rw [haU.2]
    exact hInv.prevA
  · intro v c hv
    rcases hchar v with ⟨h1, _⟩ | ⟨_, _, s, hsedge, hupd, _, _⟩
    · exact hInv.sound v c (h1 ▸ hv)
    · rw [hupd] at hv
      simp only [Option.some.injEq] at hv
      subst hv
      exact Reaches.step hm_r hsedge
  · intro p hp
    rcases relaxH_pq_new du.2 du.1 (du.2 :: st.visited) (edgesOf g du.2) st.dist st.prev
        (removeFirst du st.pq) p hp with h1 | ⟨s, h1, _, _, _⟩
    · exact hInv.pqKeys p (removeFirst_subset _ h1)
    · exact (hWF.edge_spec h1).1
  · intro p hp
    rcases relaxH_pq_new du.2 du.1 (du.2 :: st.visited) (edgesOf g du.2) st.dist st.prev
        (removeFirst du st.pq) p hp with h1 | ⟨s, _, _, _, dv, h4, h5⟩
    · obtain ⟨dv, hdv, hle⟩ := hInv.pqSound p (removeFirst_subset _ h1)
      obtain ⟨dv', hdv', hle'⟩ := relaxH_mono du.2 du.1 (du.2 :: st.visited) (edgesOf g du.2)
        st.dist st.prev (removeFirst du st.pq) p.2 dv hdv
      exact ⟨dv', hdv', le_trans hle' hle⟩
    · exact ⟨dv, h4, h5⟩
  · intro v hnv' dv hdv
    have hvne : v ≠ du.2 := fun he => hnv' (he ▸ List.mem_cons_self _ _)
    have hnvold : v ∉ st.visited := fun h => hnv' (List.mem_cons_of_mem _ h)
    rcases hchar v with ⟨h1, _⟩ | ⟨_, _, s, _, hupd, hpushed, _⟩
    · have hold : st.dist v = some dv := h1 ▸ hdv
      have hcov := hInv.pqCover v hnvold dv hold
      have hne : (dv, v) ≠ du := by
        intro he
        exact hvne (congrArg Prod.snd he)
      exact relaxH_pq_mono du.2 du.1 (du.2 :: st.visited) (edgesOf g du.2) st.dist st.prev
        (removeFirst du st.pq) (dv, v) (mem_removeFirst_of_ne hne _ hcov)
    · rw [hupd] at hdv
      simp only [Option.some.injEq] at hdv
      subst hdv
      exact hpushed
  · intro v hv c' hr
    rcases List.mem_cons.mp hv with he' | hvv
    · refine ⟨du.1, ?_, hm_min c' (he' ▸ hr)⟩
      rw [(hskip v hv).1, he']
      exact hdcur
    · obtain ⟨dv, h1, h2⟩ := hInv.settledMin v hvv c' hr
      refine ⟨dv, ?_, h2⟩
      rw [(hskip v (List.mem_cons_of_mem _ hvv)).1]
      exact h1
  · intro u hu v s hvs hvn dd hdd
    rcases List.mem_cons.mp hu with he' | huv
    · have hdd' : st.dist u = some dd := by
        rw [← (hskip u hu).1]
        exact hdd
      have hcurdd : st.dist du.2 = some dd := he' ▸ hdd'
      have hddm : dd = du.1 := by
        rw [hdcur] at hcurdd
        exact (Option.some.inj hcurdd).symm
      rw [hddm]
      exact relaxH_bound du.2 du.1 (du.2 :: st.visited) (edgesOf g du.2) st.dist st.prev
        (removeFirst du st.pq) v s (he' ▸ hvs) hvn
    · have hvnv : v ∉ st.visited := fun h => hvn (List.mem_cons_of_mem _ h)
      have hddo : st.dist u = some dd := by
        rw [← (hskip u (List.mem_cons_of_mem _ huv)).1]
        exact hdd
      obtain ⟨dv, hdv, hle⟩ := hInv.relaxed u huv v s hvs hvnv dd hddo
      obtain ⟨dv', hdv', hle'⟩ := relaxH_mono du.2 du.1 (du.2 :: st.visited) (edgesOf g du.2)
        st.dist st.prev (removeFirst du st.pq) v dv hdv
      exact ⟨dv', hdv', le_trans hle' hle⟩
  · intro v c hv
    rcases hchar v with ⟨h1, h2⟩ | ⟨hnv', h2, s, hsedge, hupd, _, _⟩
    · obtain ⟨rp, hch, hhd, htl, hcost, hlen⟩ := hInv.pathInv v c (h1 ▸ hv)
      cases rp with
      | nil => cases hhd
      | cons r0 rt =>
        simp only [List.head?_cons, Option.some.injEq] at hhd
        have hhd2 := hhd.symm
        subst hhd2
        refine ⟨v :: rt, ?_, rfl, ?_, hcost, ?_⟩
        · refine chainToStart_congr (v :: rt) ?_ hch
          intro x hx
          rcases List.mem_cons.mp hx with hx0 | hxt
          · subst hx0
            exact h2
          · exact (hskip x (List.mem_cons_of_mem _ (htl x hxt))).2
        · intro x hx
          exact List.mem_cons_of_mem _ (htl x hx)
        · simp only [List.length_cons] at hlen ⊢
          omega
    · rw [hupd] at hv
      simp only [Option.some.injEq] at hv
      subst hv
      obtain ⟨rp, hch, hhd, htl, hcost, hlen⟩ := hInv.pathInv du.2 du.1 hdcur
      cases rp with
      | nil => cases hhd
      | cons r0 rt =>
        simp only [List.head?_cons, Option.some.injEq] at hhd
        have hhd2 := hhd.symm
        subst hhd2
        have hagree : ∀ x ∈ du.2 :: rt,
            (relaxH du.2 du.1 (du.2 :: st.visited) (edgesOf g du.2) st.dist st.prev
              (removeFirst du st.pq)).2.1 x = st.prev x := by
          intro x hx
          rcases List.mem_cons.mp hx with hx0 | hxt
          · subst hx0
            exact (hskip du.2 (List.mem_cons_self _ _)).2
          · exact (hskip x (List.mem_cons_of_mem _ (htl x hxt))).2
        have hcurEdgesNodup : ((edgesOf g du.2).map Prod.fst).Nodup := by
          obtain ⟨n, hn⟩ := lookupNode_isSome_of_mem hcurK
          have := (hWF.2 (du.2, n) (lookupNode_mem hn)).1
          simpa [edgesOf, hn] using this
        refine ⟨v :: du.2 :: rt, ⟨h2, chainToStart_congr (du.2 :: rt) hagree hch⟩, rfl,
          ?_, ?_, ?_⟩
        · intro x hx
          rcases List.mem_cons.mp hx with hx0 | hxt
          · exact hx0 ▸ List.mem_cons_self _ _
          · exact List.mem_cons_of_mem _ (htl x hxt)
        · have hsim : edgeSim (edgesOf g du.2) v = some s :=
            edgeSim_eq_of_mem hcurEdgesNodup hsedge
          have hlast : (du.2 :: rt).reverse.getLast? = some du.2 := by
            rw [List.getLast?_reverse]
            rfl
          have := costOf_append_edge (du.2 :: rt).reverse du.1 du.2 v s hcost hlast hsim
          simpa [List.reverse_cons] using this
        · simp only [List.length_cons] at hlen ⊢
          omega
  · have hlenpq := removeFirst_length st.pq hmemE
    have hfb := hInv.fuelBound
    have hrel := relaxH_pq_len du.2 du.1 (du.2 :: st.visited) (edgesOf g du.2) st.dist st.prev
      (removeFirst du st.pq)
    have hdeg : degSumOver g (du.2 :: st.visited) + (edgesOf g du.2).length =
        degSumOver g st.visited :=
      sumSkip_cons (nodeKeys g) hWF.1 hcurK hnv
    omega

/-- Breaking on the end word: the recorded distance of `e` is already minimal
and the postcondition holds for the returned state. -/
theorem HInv.post_break {g : Graph} (hWF : WFGraph g) {a e : Word} {fuel : ℕ} {st : DStateH}
    (hInv : HInv g a e fuel st) {du : ℚ × Word} (hpop : minEntry st.pq = some du)
    (hnv : du.2 ∉ st.visited) (he : du.2 = e) :
    HPost g a e ⟨st.dist, st.prev, du.2 :: st.visited, removeFirst du st.pq⟩ := by
  obtain ⟨hdcur, hm_min⟩ := hInv.pop_min hWF hpop hnv
  refine ⟨?_, ?_, ?_⟩
  · intro v c hv
    obtain ⟨rp, h1, h2, _, h4, h5⟩ := hInv.pathInv v c hv
    refine ⟨rp, h1, h2, h4, ?_⟩
    have := hInv.visited_bound hWF
    omega
  · intro d hd c' hr
    have hde : st.dist e = some du.1 := he ▸ hdcur
    rw [hd] at hde
    cases hde
    exact hm_min c' (he.symm ▸ hr)
  · intro hd
    have hde : st.dist e = some du.1 := he ▸ hdcur
    rw [hd] at hde
    cases hde

/-- The solver's Dijkstra loop establishes the postcondition from any
invariant state. -/
theorem heapLoop_spec (g : Graph) (hWF : WFGraph g) (a e : Word) :
    ∀ (fuel : ℕ) (st : DStateH), HInv g a e fuel st →
      HPost g a e (heapLoop g e fuel st) := by
  intro fuel
  induction fuel with
  | zero =>
    intro st hInv
    have hnil : st.pq = [] := by
      have := hInv.fuelBound
      have h0 : st.pq.length = 0 := by omega
      exact List.length_eq_zero.mp h0
    exact hInv.post_of_pq_nil hWF hnil
  | succ fuel ih =>
    intro st hInv
    cases hpop : minEntry st.pq with
    | none =>
      rw [heapLoop_pq_nil hpop]
      exact hInv.post_of_pq_nil hWF (minEntry_eq_none hpop)
    | some du =>
      by_cases hv : du.2 ∈ st.visited
      · rw [heapLoop_skip hpop hv]
        exact ih _ (hInv.skip hpop hv)
      · by_cases he : du.2 = e
        · rw [heapLoop_break hpop hv he]
          exact hInv.post_break hWF hpop hv he
        · rw [heapLoop_settle hpop hv he]
          exact ih _ (hInv.settle hWF hpop hv)

/-- `distances = {...}; distances[start] = 0; pq = [(0, start)]; visited = set()`
of the solver's `find_shortest_path`. -/
def initStateH (g : Graph) (s : Word) : DStateH :=
  ⟨fun w => if w = s then some 0 else none, fun _ => none, [], [(0, s)]⟩

/-- Final Dijkstra state of the solver's `find_shortest_path` (fuel
`1 + totalDeg g` provably outlasts the loop). -/
def finalStateH (g : Graph) (s e : Word) : DStateH :=
  heapLoop g e (1 + totalDeg g) (initStateH g s)

/-- The distance recorded for the end word by the solver's Dijkstra. -/
def dijkstraDistH (g : Graph) (s e : Word) : Option ℚ :=
  (finalStateH g s e).dist e

/-- The solver's path reconstruction:
`while current is not None: path.insert(0, current); current = previous[current]`. -/
def reconstructH (prev : Word → Option Word) : ℕ → Word → List Word → List Word
  | 0, cur, acc => cur :: acc
  | n + 1, cur, acc =>
    match prev cur with
    | none => cur :: acc
    | some p => reconstructH prev n p (cur :: acc)

theorem reconstructH_eq {prev : Word → Option Word} {a : Word} :
    ∀ (rest : List Word) (x : Word) (fuel : ℕ) (acc : List Word),
      chainToStart prev a (x :: rest) → rest.length < fuel →
      reconstructH prev fuel x acc = (x :: rest).reverse ++ acc := by
  intro rest
  induction rest with
  | nil =>
    intro x fuel acc hch hfu
    obtain ⟨hx, hpx⟩ := hch
    cases fuel with
    | zero => cases hfu
    | succ n =>
      simp only [reconstructH, hpx]
      simp
  | cons y t ih =>
    intro x fuel acc hch hfu
    obtain ⟨hpx, hch'⟩ := hch
    cases fuel with
    | zero => cases hfu
    | succ n =>
      simp only [reconstructH, hpx]
      have hlen : t.length < n := by
        simp only [List.length_cons] at hfu
        omega
      rw [ih y n (x :: acc) hch' hlen]
      simp

/-- `HeuristicSolver.find_shortest_path(start, end)` of
`scripts/heuristic_solver.py`: Dijkstra with a lazily deleted heap, with the
early returns for absent words and `start == end`. -/
def findShortestPathH (g : Graph) (s e : Word) : List Word :=
  if s ∈ nodeKeys g ∧ e ∈ nodeKeys g then
    if s = e then [s]
    else
      match (finalStateH g s e).dist e with
      | none => []
      | some _ => reconstructH (finalStateH g s e).prev (g.length + 1) e []
  else []

theorem HInv_initH (g : Graph) (hWF : WFGraph g) (a e : Word)
    (ha : a ∈ nodeKeys g) : HInv g a e (1 + totalDeg g) (initStateH g a) := by
  refine ⟨?_, ?_, ?_, ?_, ?_, ?_, ?_, ?_, ?_, ?_, ?_, ?_⟩
  · intro w hw
    simp [initStateH] at hw
  · exact List.nodup_nil
  · simp [initStateH]
  · rfl
  · intro v c hv
    simp only [initStateH] at hv
    by_cases hva : v = a
    · subst hva
      rw [if_pos rfl] at hv
      cases hv
      exact Reaches.refl ha
    · rw [if_neg hva] at hv
      cases hv
  · intro p hp
    simp only [initStateH, List.mem_singleton] at hp
    subst hp
    exact ha
  · intro p hp
    simp only [initStateH, List.mem_singleton] at hp
    subst hp
    exact ⟨0, by simp [initStateH], le_refl 0⟩
  · intro v _ dv hdv
    simp only [initStateH] at hdv
    by_cases hva : v = a
    · subst hva
      rw [if_pos rfl] at hdv
      cases hdv
      simp [initStateH]
    · rw [if_neg hva] at hdv
      cases hdv
  · intro v hv
    simp [initStateH] at hv
  · intro u hu
    simp [initStateH] at hu
  · intro v c hv
    simp only [initStateH] at hv
    by_cases hva : v = a
    · subst hva
      rw [if_pos rfl] at hv
      cases hv
      refine ⟨[v], ⟨rfl, rfl⟩, rfl, ?_, rfl, ?_⟩
      · intro x hx
        simp at hx
      · simp [initStateH]
    · rw [if_neg hva] at hv
      cases hv
  · simp only [initStateH, List.length_singleton]
    have : degSumOver g ([] : List Word) = totalDeg g := rfl
    omega

/-- Full functional correctness of the solver's `find_shortest_path`. -/
theorem findShortestPathH_correct (g : Graph) (hWF : WFGraph g) (a b : Word)
    (hne : findShortestPathH g a b ≠ []) (hab : a ≠ b) :
    (findShortestPathH g a b).head? = some a ∧
    (findShortestPathH g a b).getLast? = some b ∧
    List.Chain' (fun x y => ∃ s, (y, s) ∈ edgesOf g x) (findShortestPathH g a b) ∧
    ∃ d, dijkstraDistH g a b = some d ∧
      costOf g (findShortestPathH g a b) = some d ∧
      ∀ q cq, q.head? = some a → q.getLast? = some b → costOf g q = some cq → d ≤ cq := by
  by_cases hg : a ∈ nodeKeys g ∧ b ∈ nodeKeys g
  · have hpost : HPost g a b (finalStateH g a b) :=
      heapLoop_spec g hWF a b (1 + totalDeg g) (initStateH g a) (HInv_initH g hWF a b hg.1)
    obtain ⟨hP1, hP2, _⟩ := hpost
    cases hdist : (finalStateH g a b).dist b with
    | none =>
      exfalso
      apply hne
      unfold findShortestPathH
      rw [if_pos hg, if_neg hab, hdist]
    | some d =>
      obtain ⟨rp, hch, hhd, hcost, hlen⟩ := hP1 b d hdist
      cases rp with
      | nil => cases hhd
      | cons r0 rt =>
        simp only [List.head?_cons, Option.some.injEq] at hhd
        have hhd2 := hhd.symm
        subst hhd2
        have hfuel : rt.length < g.length + 1 := by
          simp only [List.length_cons] at hlen
          omega
        have hrec : reconstructH (finalStateH g a b).prev (g.length + 1) b [] =
            (b :: rt).reverse ++ [] :=
          reconstructH_eq rt b (g.length + 1) [] hch hfuel
        have hpath : findShortestPathH g a b = (b :: rt).reverse := by
          unfold findShortestPathH
          rw [if_pos hg, if_neg hab, hdist, hrec]
          simp
        rw [hpath]
        refine ⟨?_, ?_, ?_, d, hdist, hcost, ?_⟩
        · rw [List.head?_reverse]
          exact chainToStart_getLast _ hch
        · rw [List.getLast?_reverse]
          rfl
        · exact chain_of_costOf _ d hcost
        · intro q cq hqh hql hqc
          exact hP2 d hdist cq (reaches_of_costOf hWF q a b cq hg.1 hqh hql hqc)
  · exfalso
    apply hne
    unfold findShortestPathH
    rw [if_neg hg]

theorem findShortestPathH_absent (g : Graph) (a b : Word)
    (h : ¬(a ∈ nodeKeys g ∧ b ∈ nodeKeys g)) : findShortestPathH g a b = [] := by
  unfold findShortestPathH
  rw [if_neg h]

theorem findShortestPathH_self (g : Graph) (a : Word) (ha : a ∈ nodeKeys g) :
    findShortestPathH g a a = [a] := by
  unfold findShortestPathH
  rw [if_pos ⟨ha, ha⟩, if_pos rfl]

theorem findShortestPathH_unreachable (g : Graph) (hWF : WFGraph g) (a b : Word)
    (ha : a ∈ nodeKeys g) (hb : b ∈ nodeKeys g) (hab : a ≠ b)
    (hur : ∀ c, ¬ Reaches g a b c) : findShortestPathH g a b = [] := by
  have hpost : HPost g a b (finalStateH g a b) :=
    heapLoop_spec g hWF a b (1 + totalDeg g) (initStateH g a) (HInv_initH g hWF a b ha)
  unfold findShortestPathH
  rw [if_pos ⟨ha, hb⟩, if_neg hab]
  cases hdist : (finalStateH g a b).dist b with
  | none => rfl
  | some d =>
    exfalso
    have hsound : Reaches g a b d := by
      obtain ⟨rp, hch, hhd, hcost, _⟩ := hpost.1 b d hdist
      cases rp with
      | nil => cases hhd
      | cons r0 rt =>
        simp only [List.head?_cons, Option.some.injEq] at hhd
        have hhd2 := hhd.symm
        subst hhd2
        refine reaches_of_costOf hWF (b :: rt).reverse a b d ha ?_ ?_ hcost
        · rw [List.head?_reverse]
          exact chainToStart_getLast _ hch
        · rw [List.getLast?_reverse]
          rfl
    exact hur d hsound

/-!
## Graph construction (`scripts/build_graph.py`, `build_graph`, lines 130-156)

The neighbor-selection loop is embedded with the similarity matrix as input
(the cosine computation itself is numerical and outside the claims).  The
composition `np.argpartition(...)[-num_to_find:]` followed by
`indices[np.argsort(...)[::-1]]` selects the `num_to_find` indices of largest
similarity sorted descending; it is modelled canonically as "sort all indices
descending by similarity, take `num_to_find`" (the two differ only in the
relative order of equal similarities, which numpy leaves unspecified for
`argpartition`; no theorem depends on that order).
-/

/-- Insert into a descending-by-key list (after entries of ≥ key). -/
def insertDesc (key : ℕ → ℚ) (x : ℕ) : List ℕ → List ℕ
  | [] => [x]
  | y :: ys => if key y < key x then x :: y :: ys else y :: insertDesc key x ys

/-- Indices sorted descending by key. -/
def sortDesc (key : ℕ → ℚ) : List ℕ → List ℕ
  | [] => []
  | x :: xs => insertDesc key x (sortDesc key xs)

theorem insertDesc_perm (key : ℕ → ℚ) (x : ℕ) :
    ∀ l : List ℕ, List.Perm (insertDesc key x l) (x :: l) := by
  intro l
  induction l with
  | nil => exact List.Perm.refl _
  | cons y ys ih =>
    by_cases h : key y < key x
    · rw [insertDesc, if_pos h]
    · rw [insertDesc, if_neg h]
      exact ((ih.cons y).trans (List.Perm.swap x y ys))

theorem sortDesc_perm (key : ℕ → ℚ) : ∀ l : List ℕ, List.Perm (sortDesc key l) l := by
  intro l
  induction l with
  | nil => exact List.Perm.refl _
  | cons x xs ih =>
    exact (insertDesc_perm key x (sortDesc key xs)).trans (ih.cons x)

theorem insertDesc_pairwise (key : ℕ → ℚ) (x : ℕ) :
    ∀ l : List ℕ, List.Pairwise (fun a b => key b ≤ key a) l →
      List.Pairwise (fun a b => key b ≤ key a) (insertDesc key x l) := by
  intro l
  induction l with
  | nil => intro _; exact List.pairwise_singleton _ _
  | cons y ys ih =>
    intro hp
    rw [List.pairwise_cons] at hp
    by_cases h : key y < key x
    · rw [insertDesc, if_pos h]
      rw [List.pairwise_cons]
      constructor
      · intro b hb
        rcases List.mem_cons.mp hb with he | hm
        · exact he ▸ le_of_lt h
        · exact le_trans (hp.1 b hm) (le_of_lt h)
      · exact List.pairwise_cons.mpr hp
    · rw [insertDesc, if_neg h]
      rw [List.pairwise_cons]
      constructor
      · intro b hb
        have := (insertDesc_perm key x ys).mem_iff.mp hb
        rcases List.mem_cons.mp this with he | hm
        · exact he ▸ not_lt.mp h
        · exact hp.1 b hm
      · exact ih hp.2

theorem sortDesc_pairwise (key : ℕ → ℚ) :
    ∀ l : List ℕ, List.Pairwise (fun a b => key b ≤ key a) (sortDesc key l) := by
  intro l
  induction l with
  | nil => exact List.Pairwise.nil
  | cons x xs ih => exact insertDesc_pairwise key x (sortDesc key xs) ih

/-- The inner `for idx in sorted_indices:` loop: skip the word itself, add
`words[idx] ↦ similarities[idx]`, stop as soon as `k` neighbors were added. -/
def takeNeighbors (words : List Word) (sims : ℕ → ℚ) (i k : ℕ) :
    List ℕ → ℕ → List (Word × ℚ)
  | [], _ => []
  | idx :: rest, found =>
    if idx = i then takeNeighbors words sims i k rest found
    else
      if found + 1 = k then [(words.getD idx "", sims idx)]
      else (words.getD idx "", sims idx) :: takeNeighbors words sims i k rest (found + 1)

/-- One node built by `build_graph`: the `k` most similar other words, sorted
descending, with the word's t-SNE coordinate (default `[0, 0]`). -/
def buildNode (words : List Word) (sim : ℕ → ℕ → ℚ) (k : ℕ)
    (tsneMap : Word → Option (List ℚ)) (i : ℕ) : Word × Node :=
  let n := words.length
  let numToFind := min (k + 1) n
  let sortedIndices := (sortDesc (sim i) (List.range n)).take numToFind
  let edges := takeNeighbors words (sim i) i k sortedIndices 0
  let tsne := match tsneMap (words.getD i "") with
    | some t => t
    | none => [0, 0]
  (words.getD i "", ⟨edges, tsne⟩)

/-- The graph-building loop of `build_graph` (`scripts/build_graph.py`):
`words` are the filtered vocabulary (dict keys, hence distinct), `sim i j` the
cosine-similarity matrix. -/
def buildGraphNodes (words : List Word) (sim : ℕ → ℕ → ℚ) (k : ℕ)
    (tsneMap : Word → Option (List ℚ)) : Graph :=
  (List.range words.length).map (buildNode words sim k tsneMap)

theorem takeNeighbors_length (words : List Word) (sims : ℕ → ℚ) (i k : ℕ) :
    ∀ (l : List ℕ) (found : ℕ), found < k →
      (takeNeighbors words sims i k l found).length ≤ k - found := by
  intro l
  induction l with
  | nil => intro found _; simp [takeNeighbors]
  | cons idx rest ih =>
    intro found hf
    by_cases hidx : idx = i
    · rw [takeNeighbors, if_pos hidx]
      exact ih found hf
    · rw [takeNeighbors, if_neg hidx]
      by_cases hlast : found + 1 = k
      · rw [if_pos hlast]
        simp only [List.length_singleton]
        omega
      · rw [if_neg hlast]
        have hf' : found + 1 < k := by omega
        have := ih (found + 1) hf'
        simp only [List.length_cons]
        omega

theorem takeNeighbors_sublist_map (words : List Word) (sims : ℕ → ℚ) (i k : ℕ) :
    ∀ (l : List ℕ) (found : ℕ), ∃ l2 : List ℕ, List.Sublist l2 l ∧ (∀ x ∈ l2, x ≠ i) ∧
      takeNeighbors words sims i k l found = l2.map (fun idx => (words.getD idx "", sims idx)) := by
  intro l
  induction l with
  | nil => intro found; exact ⟨[], List.Sublist.refl _, by simp, rfl⟩
  | cons idx rest ih =>
    intro found
    by_cases hidx : idx = i
    · obtain ⟨l', h1, h2, h3⟩ := ih found
      exact ⟨l', h1.cons idx, h2, by rw [takeNeighbors, if_pos hidx]; exact h3⟩
    · by_cases hlast : found + 1 = k
      · refine ⟨[idx], ?_, ?_, ?_⟩
        · simpa using List.Sublist.cons₂ idx (List.nil_sublist rest)
        · intro x hx
          simp only [List.mem_singleton] at hx
          exact hx ▸ hidx
        · rw [takeNeighbors, if_neg hidx, if_pos hlast]
          rfl
      · obtain ⟨l', h1, h2, h3⟩ := ih (found + 1)
        refine ⟨idx :: l', List.Sublist.cons₂ idx h1, ?_, ?_⟩
        · intro x hx
          rcases List.mem_cons.mp hx with he | hm
          · exact he ▸ hidx
          · exact h2 x hm
        · rw [takeNeighbors, if_neg hidx, if_neg hlast, h3]
          rfl

/-- `build_graph` caps each edge list at `K` (for `K ≥ 1`). -/
theorem buildNode_edges_le (words : List Word) (sim : ℕ → ℕ → ℚ) (k : ℕ)
    (tsneMap : Word → Option (List ℚ)) (i : ℕ) (hk : 1 ≤ k) :
    (buildNode words sim k tsneMap i).2.edges.length ≤ k := by
  unfold buildNode
  have := takeNeighbors_length words (sim i) i k
    ((sortDesc (sim i) (List.range words.length)).take (min (k + 1) words.length)) 0
    (by omega)
  simpa using this

/-- `build_graph` never links a word to itself (`if idx != i`). -/
theorem buildNode_no_self (words : List Word) (sim : ℕ → ℕ → ℚ) (k : ℕ)
    (tsneMap : Word → Option (List ℚ)) (i : ℕ) (hnd : words.Nodup)
    (hi : i < words.length) :
    (buildNode words sim k tsneMap i).1 ∉
      (buildNode words sim k tsneMap i).2.edges.map Prod.fst := by
  unfold buildNode
  intro hmem
  obtain ⟨l', hsub, hne, heq⟩ := takeNeighbors_sublist_map words (sim i) i k
    ((sortDesc (sim i) (List.range words.length)).take (min (k + 1) words.length)) 0
  simp only at hmem
  rw [heq] at hmem
  simp only [List.map_map, List.mem_map, Function.comp] at hmem
  obtain ⟨idx, hidxm, hidxe⟩ := hmem
  have hidxrange : idx ∈ List.range words.length := by
    have h1 : idx ∈ (sortDesc (sim i) (List.range words.length)).take
        (min (k + 1) words.length) := hsub.subset hidxm
    have h2 : idx ∈ sortDesc (sim i) (List.range words.length) :=
      (List.take_sublist _ _).subset h1
    exact (sortDesc_perm (sim i) (List.range words.length)).subset h2
  have hidxlt : idx < words.length := List.mem_range.mp hidxrange
  have hgi : words.getD i "" = words.get ⟨i, hi⟩ := List.getD_eq_get words "" hi
  have hgidx : words.getD idx "" = words.get ⟨idx, hidxlt⟩ := List.getD_eq_get words "" hidxlt
  rw [hgi, hgidx] at hidxe
  have : (⟨idx, hidxlt⟩ : Fin words.length) = ⟨i, hi⟩ := by
    apply (List.Nodup.get_inj_iff hnd).mp
    exact hidxe
  exact hne idx hidxm (congrArg Fin.val this)

/-- `build_graph` emits each edge list sorted by non-increasing similarity. -/
theorem buildNode_edges_sorted (words : List Word) (sim : ℕ → ℕ → ℚ) (k : ℕ)
    (tsneMap : Word → Option (List ℚ)) (i : ℕ) :
    List.Pairwise (fun p q : Word × ℚ => q.2 ≤ p.2)
      (buildNode words sim k tsneMap i).2.edges := by
  unfold buildNode
  obtain ⟨l', hsub, _, heq⟩ := takeNeighbors_sublist_map words (sim i) i k
    ((sortDesc (sim i) (List.range words.length)).take (min (k + 1) words.length)) 0
  simp only
  rw [heq]
  have hsorted : List.Pairwise (fun a b => sim i b ≤ sim i a)
      ((sortDesc (sim i) (List.range words.length)).take (min (k + 1) words.length)) :=
    (sortDesc_pairwise (sim i) (List.range words.length)).sublist (List.take_sublist _ _)
  have hl' : List.Pairwise (fun a b => sim i b ≤ sim i a) l' := hsorted.sublist hsub
  exact List.pairwise_map.mpr (by
    refine hl'.imp ?_
    intro a b hab
    exact hab)


/-!
## Daily-pair generation (`scripts/generate_daily_pairs.py`)

`generate_valid_pair` draws random index pairs from a stream `o : ℕ → ℕ`
(each `random.randint(0, n-1)` takes the next stream value mod `n`) for at
most `MAX_ATTEMPTS_PER_PAIR` attempts.  The inner
`while end_index == start_index:` redraw loop is unbounded in Python; it is
modelled with explicit fuel `innerFuel`, and exhausting that fuel sets a
`diverged` marker (no theorem depends on the other fields of a diverged
result).  Python dict/shared-dict state is passed explicitly; the result also
carries the advanced stream position and the number of outer attempts used.
-/

def MIN_PATH_LENGTH : ℕ := 4
def MAX_PATH_LENGTH : ℕ := 5
def MAX_ATTEMPTS_PER_PAIR : ℕ := 200
def MIN_NODE_DEGREE : ℕ := 3
/-- `20 * 20`. -/
def MIN_TSNE_DISTANCE_SQUARED : ℚ := 400

/-- A generated puzzle pair (the dict returned by `generate_valid_pair`). -/
structure Pair where
  startWord : Word
  targetWord : Word
  pathLength : ℕ
deriving Repr, DecidableEq

/-- `path_length = len(path) - 1 if path else 0` recomputed from the graph. -/
def pathLenOf (g : Graph) (s t : Word) : ℕ :=
  if findShortestPathG g s t = [] then 0 else (findShortestPathG g s t).length - 1

/-- `target_path_length is not None and target_path_length <= 4`. -/
def tlenShort : Option ℕ → Bool
  | some t => decide (t ≤ 4)
  | none => false

/-- The validation chain of one attempt of `generate_valid_pair` (used-word
check, graph-membership check, t-SNE distance check, degree check, path-length
check); `some pair` iff the attempt is accepted.  Notes: a node value is
"truthy" iff present (built graphs never store empty node dicts); the `"tsne"
in node` / non-empty / length-2 conditions collapse to the length-2 check on
the `tsne` field; `MIN_TSNE_DISTANCE_SQUARED // 2` is the exact rational
`400 / 2` here. -/
def gvpCheck (g : Graph) (usedS usedT : List Word) (tlen : Option ℕ)
    (start_word end_word : Word) : Option Pair :=
  if start_word ∈ usedS ∨ end_word ∈ usedT then none
  else
    match lookupNode g start_word, lookupNode g end_word with
    | some sN, some eN =>
      if sN.tsne.length = 2 ∧ eN.tsne.length = 2 then
        if (sN.tsne.getD 0 0 - eN.tsne.getD 0 0) * (sN.tsne.getD 0 0 - eN.tsne.getD 0 0) +
            (sN.tsne.getD 1 0 - eN.tsne.getD 1 0) * (sN.tsne.getD 1 0 - eN.tsne.getD 1 0) <
            (if tlenShort tlen then MIN_TSNE_DISTANCE_SQUARED / 2
             else MIN_TSNE_DISTANCE_SQUARED) then
          none
        else
          if sN.edges.length < (if tlenShort tlen then 1 else MIN_NODE_DEGREE) ∨
              eN.edges.length < (if tlenShort tlen then 1 else MIN_NODE_DEGREE) then
            none
          else
            if MIN_PATH_LENGTH ≤ pathLenOf g start_word end_word ∧
                pathLenOf g start_word end_word ≤ MAX_PATH_LENGTH then
              some ⟨start_word, end_word, pathLenOf g start_word end_word⟩
            else none
      else none
    | _, _ => none

/-- `while end_index == start_index: end_index = random.randint(0, n-1)`,
with fuel; returns the drawn index and the advanced stream position. -/
def drawDifferent (o : ℕ → ℕ) (n startIdx : ℕ) : ℕ → ℕ → Option (ℕ × ℕ)
  | _, 0 => none
  | ptr, fuel + 1 =>
    if o ptr % n = startIdx then drawDifferent o n startIdx (ptr + 1) fuel
    else some (o ptr % n, ptr + 1)

/-- Result of `generate_valid_pair` plus explicit bookkeeping (attempt count,
stream position, inner-loop divergence marker). -/
structure GVPResult where
  result : Option Pair
  attempts : ℕ
  ptr : ℕ
  diverged : Bool
deriving Repr, DecidableEq

/-- The `for _ in range(MAX_ATTEMPTS_PER_PAIR):` loop of
`generate_valid_pair`. -/
def gvpLoop (g : Graph) (words : List Word) (usedS usedT : List Word)
    (tlen : Option ℕ) (o : ℕ → ℕ) (innerFuel : ℕ) :
    ℕ → ℕ → ℕ → GVPResult
  | 0, ptr, att => ⟨none, att, ptr, false⟩
  | fuel + 1, ptr, att =>
    match drawDifferent o words.length (o ptr % words.length) (ptr + 1) innerFuel with
    | none => ⟨none, att + 1, ptr, true⟩
    | some (endIdx, ptr2) =>
      match gvpCheck g usedS usedT tlen (words.getD (o ptr % words.length) "")
          (words.getD endIdx "") with
      | some p => ⟨some p, att + 1, ptr2, false⟩
      | none => gvpLoop g words usedS usedT tlen o innerFuel fuel ptr2 (att + 1)

/-- `generate_valid_pair(graph, words_list, used_start_words,
used_target_words, target_path_length)`. -/
def generate_valid_pair (g : Graph) (words : List Word) (usedS usedT : List Word)
    (tlen : Option ℕ) (o : ℕ → ℕ) (innerFuel ptr : ℕ) : GVPResult :=
  if words.length < 2 then ⟨none, 0, ptr, false⟩
  else gvpLoop g words usedS usedT tlen o innerFuel MAX_ATTEMPTS_PER_PAIR ptr 0

theorem gvpCheck_spec (g : Graph) (usedS usedT : List Word) (tlen : Option ℕ)
    (sw ew : Word) (p : Pair) (h : gvpCheck g usedS usedT tlen sw ew = some p) :
    p.startWord = sw ∧ p.targetWord = ew ∧
    p.pathLength = pathLenOf g sw ew ∧
    MIN_PATH_LENGTH ≤ p.pathLength ∧ p.pathLength ≤ MAX_PATH_LENGTH ∧
    sw ∉ usedS ∧ ew ∉ usedT := by
  unfold gvpCheck at h
  by_cases hused : sw ∈ usedS ∨ ew ∈ usedT
  · rw [if_pos hused] at h
    exact absurd h (by simp)
  · rw [if_neg hused] at h
    push_neg at hused
    repeat' split at h
    all_goals
      first
      | (rename_i hrange
         injection h with h
         subst h
         exact ⟨rfl, rfl, rfl, hrange.1, hrange.2, hused.1, hused.2⟩)
      | exact absurd h (by simp)

theorem gvpLoop_attempts (g : Graph) (words : List Word) (usedS usedT : List Word)
    (tlen : Option ℕ) (o : ℕ → ℕ) (innerFuel : ℕ) :
    ∀ fuel ptr att,
      (gvpLoop g words usedS usedT tlen o innerFuel fuel ptr att).attempts ≤ att + fuel := by
  intro fuel
  induction fuel with
  | zero =>
    intro ptr att
    rw [gvpLoop]
    dsimp only
    omega
  | succ n ih =>
    intro ptr att
    rw [gvpLoop]
    split
    · dsimp only
      omega
    · split
      · dsimp only
        omega
      · exact le_trans (ih _ _) (by omega)

/-- `generate_valid_pair` performs at most `MAX_ATTEMPTS_PER_PAIR` sampling
attempts. -/
theorem generate_valid_pair_attempts (g : Graph) (words : List Word)
    (usedS usedT : List Word) (tlen : Option ℕ) (o : ℕ → ℕ) (innerFuel ptr : ℕ) :
    (generate_valid_pair g words usedS usedT tlen o innerFuel ptr).attempts ≤
      MAX_ATTEMPTS_PER_PAIR := by
  unfold generate_valid_pair
  split
  · simp [MAX_ATTEMPTS_PER_PAIR]
  · simpa using gvpLoop_attempts g words usedS usedT tlen o innerFuel
      MAX_ATTEMPTS_PER_PAIR ptr 0

theorem gvpLoop_some (g : Graph) (words : List Word) (usedS usedT : List Word)
    (tlen : Option ℕ) (o : ℕ → ℕ) (innerFuel : ℕ) :
    ∀ fuel ptr att p,
      (gvpLoop g words usedS usedT tlen o innerFuel fuel ptr att).result = some p →
      p.pathLength = pathLenOf g p.startWord p.targetWord ∧
      MIN_PATH_LENGTH ≤ p.pathLength ∧ p.pathLength ≤ MAX_PATH_LENGTH ∧
      p.startWord ∉ usedS ∧ p.targetWord ∉ usedT := by
  intro fuel
  induction fuel with
  | zero =>
    intro ptr att p h
    rw [gvpLoop] at h
    exact absurd h (by simp)
  | succ n ih =>
    intro ptr att p h
    rw [gvpLoop] at h
    split at h
    · exact absurd h (by simp)
    · split at h
      · rename_i q hq
        simp only at h
        cases h
        obtain ⟨h1, h2, h3, h4, h5, h6, h7⟩ := gvpCheck_spec _ _ _ _ _ _ _ hq
        rw [← h1] at h3 h6
        rw [← h2] at h3 h7
        exact ⟨h3, h4, h5, h6, h7⟩
      · exact ih _ _ p h

/-- Every pair returned by `generate_valid_pair` has recorded `pathLength`
equal to the recomputed shortest-path edge count and in
`[MIN_PATH_LENGTH, MAX_PATH_LENGTH]`, and its words are fresh in their
roles. -/
theorem generate_valid_pair_some (g : Graph) (words : List Word)
    (usedS usedT : List Word) (tlen : Option ℕ) (o : ℕ → ℕ) (innerFuel ptr : ℕ)
    (p : Pair)
    (h : (generate_valid_pair g words usedS usedT tlen o innerFuel ptr).result = some p) :
    p.pathLength = pathLenOf g p.startWord p.targetWord ∧
    MIN_PATH_LENGTH ≤ p.pathLength ∧ p.pathLength ≤ MAX_PATH_LENGTH ∧
    p.startWord ∉ usedS ∧ p.targetWord ∉ usedT := by
  unfold generate_valid_pair at h
  split at h
  · exact absurd h (by simp)
  · exact gvpLoop_some g words usedS usedT tlen o innerFuel _ _ _ p h

/-!
## `generate_chunk` (`scripts/generate_daily_pairs.py`)

One worker's `while any(count > 0 for count in needed_pairs.values()):` loop,
sequential view (the shared `Manager` dicts are passed explicitly; the claims
concern the loop logic, not multiprocessing interleavings).  `needed_pairs` is
an association list path-length ↦ remaining count; `generated_pairs` the set
of canonical `tuple(sorted(pair))` keys.  A `halted` marker records the
modelled inner-loop divergence of `generate_valid_pair` (where Python would
spin forever); stepping stops there.
-/

def lookupCount : List (ℕ × ℕ) → ℕ → Option ℕ
  | [], _ => none
  | (l, c) :: rest, pl => if l = pl then some c else lookupCount rest pl

def decCount : List (ℕ × ℕ) → ℕ → List (ℕ × ℕ)
  | [], _ => []
  | (l, c) :: rest, pl => if l = pl then (l, c - 1) :: rest else (l, c) :: decCount rest pl

/-- `tuple(sorted((start_word, target_word)))`. -/
def pairKey (s t : Word) : Word × Word := if s ≤ t then (s, t) else (t, s)

structure ChunkState where
  chunk_pairs : List Pair
  generated_pairs : List (Word × Word)
  used_start_words : List Word
  used_target_words : List Word
  needed_pairs : List (ℕ × ℕ)
  ptr : ℕ
  halted : Bool
deriving Repr, DecidableEq

/-- Loop guard (negated): all requested counts are zero, or the modelled
divergence marker is set. -/
def chunkDone (st : ChunkState) : Bool :=
  st.halted || st.needed_pairs.all (fun p => p.2 == 0)

/-- One iteration of the `generate_chunk` loop body. -/
def chunkStep (g : Graph) (words : List Word) (o : ℕ → ℕ) (innerFuel : ℕ)
    (st : ChunkState) : ChunkState :=
  let r := generate_valid_pair g words st.used_start_words st.used_target_words
    none o innerFuel st.ptr
  if r.diverged then { st with halted := true }
  else
    match r.result with
    | none => { st with ptr := r.ptr }
    | some pair =>
      match lookupCount st.needed_pairs pair.pathLength with
      | none => { st with ptr := r.ptr }
      | some cnt =>
        if cnt = 0 then { st with ptr := r.ptr }
        else
          if pairKey pair.startWord pair.targetWord ∈ st.generated_pairs then
            { st with ptr := r.ptr }
          else
            { chunk_pairs := st.chunk_pairs ++ [pair]
              generated_pairs := pairKey pair.startWord pair.targetWord :: st.generated_pairs
              used_start_words := pair.startWord :: st.used_start_words
              used_target_words := pair.targetWord :: st.used_target_words
              needed_pairs := decCount st.needed_pairs pair.pathLength
              ptr := r.ptr
              halted := false }

/-- `n` guarded iterations of the `generate_chunk` loop. -/
def chunkRun (g : Graph) (words : List Word) (o : ℕ → ℕ) (innerFuel : ℕ) :
    ℕ → ChunkState → ChunkState
  | 0, st => st
  | n + 1, st =>
    if chunkDone st then st
    else chunkRun g words o innerFuel n (chunkStep g words o innerFuel st)

/-- The `generate_chunk` loop terminates iff some number of iterations makes
the guard false. -/
def ChunkTerminates (g : Graph) (words : List Word) (o : ℕ → ℕ) (innerFuel : ℕ)
    (st : ChunkState) : Prop :=
  ∃ n, chunkDone (chunkRun g words o innerFuel n st) = true

/-- The start/target-freshness invariant preserved by the chunk loop. -/
def ChunkInv (st : ChunkState) : Prop :=
  (st.chunk_pairs.map Pair.startWord).Nodup ∧
  (st.chunk_pairs.map Pair.targetWord).Nodup ∧
  ∀ p ∈ st.chunk_pairs,
    p.startWord ∈ st.used_start_words ∧ p.targetWord ∈ st.used_target_words

theorem chunkStep_inv (g : Graph) (words : List Word) (o : ℕ → ℕ) (innerFuel : ℕ)
    (st : ChunkState) (h : ChunkInv st) : ChunkInv (chunkStep g words o innerFuel st) := by
  obtain ⟨hs, ht, hmem⟩ := h
  unfold chunkStep
  dsimp only
  split
  · exact ⟨hs, ht, hmem⟩
  · split
    · exact ⟨hs, ht, hmem⟩
    · rename_i pair hres
      obtain ⟨-, -, -, hfs, hft⟩ := generate_valid_pair_some g words
        st.used_start_words st.used_target_words none o innerFuel st.ptr pair hres
      split
      · exact ⟨hs, ht, hmem⟩
      · split
        · exact ⟨hs, ht, hmem⟩
        · split
          · exact ⟨hs, ht, hmem⟩
          · refine ⟨?_, ?_, ?_⟩
            · dsimp only
              rw [List.map_append]
              apply List.Nodup.append hs (List.nodup_singleton _)
              intro a ha hb
              simp only [List.map_cons, List.map_nil, List.mem_singleton] at hb
              subst hb
              simp only [List.mem_map] at ha
              obtain ⟨q, hq, hqe⟩ := ha
              exact hfs (hqe ▸ (hmem q hq).1)
            · dsimp only
              rw [List.map_append]
              apply List.Nodup.append ht (List.nodup_singleton _)
              intro a ha hb
              simp only [List.map_cons, List.map_nil, List.mem_singleton] at hb
              subst hb
              simp only [List.mem_map] at ha
              obtain ⟨q, hq, hqe⟩ := ha
              exact hft (hqe ▸ (hmem q hq).2)
            · intro p hp
              dsimp only at hp ⊢
              rcases List.mem_append.mp hp with hold | hnew
              · exact ⟨List.mem_cons_of_mem _ (hmem p hold).1,
                  List.mem_cons_of_mem _ (hmem p hold).2⟩
              · simp only [List.mem_singleton] at hnew
                subst hnew
                exact ⟨List.mem_cons_self _ _, List.mem_cons_self _ _⟩

theorem chunkRun_inv (g : Graph) (words : List Word) (o : ℕ → ℕ) (innerFuel : ℕ) :
    ∀ (n : ℕ) (st : ChunkState), ChunkInv st →
      ChunkInv (chunkRun g words o innerFuel n st) := by
  intro n
  induction n with
  | zero => intro st h; exact h
  | succ m ih =>
    intro st h
    rw [chunkRun]
    split
    · exact h
    · exact ih _ (chunkStep_inv g words o innerFuel st h)

/-- If one iteration does not change the state and the guard holds, the
`generate_chunk` loop never terminates. -/
theorem chunk_nonterminating (g : Graph) (words : List Word) (o : ℕ → ℕ)
    (innerFuel : ℕ) (st : ChunkState)
    (hstep : chunkStep g words o innerFuel st = st)
    (hdone : chunkDone st = false) :
    ¬ ChunkTerminates g words o innerFuel st := by
  rintro ⟨n, hn⟩
  have hrun : ∀ m, chunkRun g words o innerFuel m st = st := by
    intro m
    induction m with
    | zero => rfl
    | succ k ih =>
      rw [chunkRun, hdone]
      simp only [Bool.false_eq_true, if_false]
      rw [hstep]
      exact ih
  rw [hrun n, hdone] at hn
  exact absurd hn (by simp)

/-!
## Heuristic solver (`scripts/heuristic_solver.py`, `HeuristicSolver`)

Floats are modelled as rationals (all arithmetic here — `1000/(d+1)`, the
bonuses, `0.15 + attempt * 0.05` — is exact in ℚ), `float('inf')` as a
dedicated `Score.inf` constructor.  Python's `random` is modelled by an
oracle: a single counter indexes two value families, `rand i` for
`random.random()` draws and `pick i` (reduced mod the list length) for
`random.choice` selections; each consumption advances the counter by one.
Every deterministic seeded RNG run corresponds to some pair of families, so
theorems quantified over the oracle cover all Python runs.
-/

/-- A heuristic score: `float('inf')` (for the target) or a finite value. -/
inductive Score where
  | inf : Score
  | val : ℚ → Score
deriving Repr, DecidableEq

/-- Float `<` with infinity: every finite value is below `inf`. -/
def scoreLt : Score → Score → Bool
  | .inf, _ => false
  | .val _, .inf => true
  | .val a, .val b => decide (a < b)

/-- Python tuple comparison `(score, word) < (score, word)`. -/
def scoredLt (x y : Score × Word) : Bool :=
  scoreLt x.1 y.1 || (x.1 == y.1 && decide (x.2 < y.2))

/-- Insert into a list sorted descending by `scoredLt`. -/
def insertScored (x : Score × Word) : List (Score × Word) → List (Score × Word)
  | [] => [x]
  | y :: ys => if scoredLt y x then x :: y :: ys else y :: insertScored x ys

/-- `neighbor_scores.sort(reverse=True)`: descending by `(score, word)`. -/
def sortScored : List (Score × Word) → List (Score × Word)
  | [] => []
  | x :: xs => insertScored x (sortScored xs)

/-- Insert into a list of edges sorted descending by similarity; an element is
placed before existing ties, matching the stability of Python's `sorted` on
the earlier-iterated element. -/
def insertEdgeDesc (x : Word × ℚ) : List (Word × ℚ) → List (Word × ℚ)
  | [] => [x]
  | y :: ys => if y.2 ≤ x.2 then x :: y :: ys else y :: insertEdgeDesc x ys

def sortEdgesDesc : List (Word × ℚ) → List (Word × ℚ)
  | [] => []
  | x :: xs => insertEdgeDesc x (sortEdgesDesc xs)

/-- `HeuristicSolver.get_word_neighbors`: neighbors sorted by similarity,
highest first (empty for absent words). -/
def get_word_neighbors (g : Graph) (word : Word) : List Word :=
  (sortEdgesDesc (edgesOf g word)).map Prod.fst

/-- Stable descending sort of `(word, degree)` pairs. -/
def insertDegDesc (x : Word × ℕ) : List (Word × ℕ) → List (Word × ℕ)
  | [] => [x]
  | y :: ys => if y.2 ≤ x.2 then x :: y :: ys else y :: insertDegDesc x ys

def sortDegDesc : List (Word × ℕ) → List (Word × ℕ)
  | [] => []
  | x :: xs => insertDegDesc x (sortDegDesc xs)

/-- `HeuristicSolver._identify_hub_words` (with `_calculate_word_degrees`):
the top `max(1, int(0.1 * n))` words by degree.  `int(n * 0.1)` is modelled as
`n / 10` (they agree for every realistic `n`; the claims do not depend on the
cut-off value). -/
def identify_hub_words (g : Graph) : List Word :=
  if g = [] then []
  else
    ((sortDegDesc (g.map (fun p => (p.1, p.2.edges.length)))).take
      (max 1 (g.length / 10))).map Prod.fst

/-- `HeuristicSolver.calculate_heuristic_score(word, target, current_path)`. -/
def calculate_heuristic_score (g : Graph) (hubs : List Word)
    (word target : Word) (current_path : List Word) : Score :=
  if word = target then .inf
  else
    .val
      ((match findShortestPathH g word target with
        | [] => 0
        | q => 1000 / (((q.length - 1) + 1 : ℕ) : ℚ)) +
      (if word ∈ hubs then 50 else 0) +
      (if word ∈ current_path then -200 else 0) +
      ((edgesOf g word).length : ℚ) * 2 +
      (match edgeSim (edgesOf g word) target with
        | some s => s * 100
        | none => 0))

structure Oracle where
  rand : ℕ → ℚ
  pick : ℕ → ℕ

structure AttemptState where
  current_word : Word
  path : List Word
  steps : ℕ
  ptr : ℕ
deriving Repr, DecidableEq

/-- The fields of the result dict of `_solve_single_attempt` that later code
reads (`status` as a Boolean `solved`), plus the advanced RNG position. -/
structure AttemptResult where
  path : List Word
  steps : ℕ
  solved : Bool
  ptr : ℕ
deriving Repr, DecidableEq

inductive StepOut where
  | done : AttemptResult → StepOut
  | next : AttemptState → StepOut
deriving Repr, DecidableEq

/-- The neighbor-selection block of `_solve_single_attempt`: sort the scored
neighbors descending; with probability `randomness_factor` (and more than one
option) pick uniformly among the top `min(5, len)`, otherwise take the best.
Returns the chosen word and the advanced RNG position. -/
def chooseBest (rf : ℚ) (o : Oracle) (ptr : ℕ) (scored : List (Score × Word)) :
    Word × ℕ :=
  let ss := sortScored scored
  if 1 < ss.length then
    if o.rand ptr < rf then
      (((ss.take (min 5 ss.length)).getD (o.pick (ptr + 1) % min 5 ss.length)
        (.inf, "")).2, ptr + 2)
    else ((ss.getD 0 (.inf, "")).2, ptr + 1)
  else ((ss.getD 0 (.inf, "")).2, ptr)

/-- Python `l[-n:]`. -/
def lastN (n : ℕ) (l : List Word) : List Word := l.drop (l.length - n)

/-- The scored neighbor choice of one iteration: the chosen word and the
advanced RNG position. -/
def chosenWord (g : Graph) (hubs : List Word) (target : Word) (rf : ℚ)
    (o : Oracle) (nbrs : List Word) (ptr : ℕ) (st : AttemptState) : Word × ℕ :=
  chooseBest rf o ptr
    (nbrs.map (fun n => (calculate_heuristic_score g hubs n target st.path, n)))

/-- The tail of one loop iteration of `_solve_single_attempt` after the
direct-target block: the dead-end check on the (possibly filtered) neighbor
list, heuristic scoring and choice, the append, and the anti-cycle hub jump. -/
def solveScore (g : Graph) (hubs : List Word) (target : Word) (rf : ℚ)
    (o : Oracle) (nbrs : List Word) (ptr : ℕ) (st : AttemptState) : StepOut :=
  if nbrs = [] then .done ⟨st.path, st.steps, false, ptr⟩
  else
    let bp := chosenWord g hubs target rf o nbrs ptr st
    let path2 := st.path ++ [bp.1]
    if 10 < path2.length ∧ (lastN 5 path2).dedup.length ≤ 2 then
      let hubNbrs := nbrs.filter (fun n => decide (n ∈ hubs ∧ n ∉ lastN 3 path2))
      if hubNbrs = [] then .next ⟨bp.1, path2, st.steps + 1, bp.2⟩
      else
        let h := hubNbrs.getD (o.pick bp.2 % hubNbrs.length) ""
        .next ⟨h, path2 ++ [h], st.steps + 2, bp.2 + 1⟩
    else .next ⟨bp.1, path2, st.steps + 1, bp.2⟩

/-- `len(path) == optimal_length` (false when optimal length is infinite). -/
def atOptimalLen (optLen : Option ℕ) (n : ℕ) : Bool :=
  match optLen with
  | some L => n == L
  | none => false

/-- `len(path) >= optimal_length - 1` over the integers (false for infinite
optimal length). -/
def nearOptimalLen (optLen : Option ℕ) (n : ℕ) : Bool :=
  match optLen with
  | some L => decide (L ≤ n + 1)
  | none => false

/-- `steps_taken > optimal_length + 1` (false for infinite optimal length). -/
def tooLongBy2 (optLen : Option ℕ) (steps : ℕ) : Bool :=
  match optLen with
  | some L => decide (L + 1 < steps)
  | none => false

/-- One iteration of the `while steps < max_steps and current_word !=
target_word` loop body of `_solve_single_attempt`. -/
def solveStep (g : Graph) (hubs : List Word) (target : Word) (optLen : Option ℕ)
    (rf : ℚ) (avoid : Bool) (o : Oracle) (st : AttemptState) : StepOut :=
  let neighbors := get_word_neighbors g st.current_word
  if neighbors = [] then .done ⟨st.path, st.steps, false, st.ptr⟩
  else
    if target ∈ neighbors then
      if avoid ∧ atOptimalLen optLen st.path.length then
        if o.rand st.ptr < 9/10 then
          solveScore g hubs target rf o (neighbors.filter (fun n => n ≠ target))
            (st.ptr + 1) st
        else .done ⟨st.path ++ [target], st.steps + 1, true, st.ptr + 1⟩
      else if avoid ∧ nearOptimalLen optLen st.path.length then
        if o.rand st.ptr < 7/10 then
          solveScore g hubs target rf o (neighbors.filter (fun n => n ≠ target))
            (st.ptr + 1) st
        else .done ⟨st.path ++ [target], st.steps + 1, true, st.ptr + 1⟩
      else .done ⟨st.path ++ [target], st.steps + 1, true, st.ptr⟩
    else solveScore g hubs target rf o neighbors st.ptr st

/-- The attempt loop, fuelled: every iteration increases `steps` by at least
one, so fuel `max_steps + 1` never runs out; the fuel-0 branch mirrors the
normal loop exit. -/
def solveLoop (g : Graph) (hubs : List Word) (target : Word) (optLen : Option ℕ)
    (rf : ℚ) (avoid : Bool) (o : Oracle) (max_steps : ℕ) :
    ℕ → AttemptState → AttemptResult
  | 0, st => ⟨st.path, st.steps, st.current_word == target, st.ptr⟩
  | fuel + 1, st =>
    if st.steps < max_steps ∧ st.current_word ≠ target then
      match solveStep g hubs target optLen rf avoid o st with
      | .done r => r
      | .next st2 => solveLoop g hubs target optLen rf avoid o max_steps fuel st2
    else ⟨st.path, st.steps, st.current_word == target, st.ptr⟩

/-- `HeuristicSolver._solve_single_attempt`. -/
def solve_single_attempt (g : Graph) (hubs : List Word) (start target : Word)
    (max_steps : ℕ) (optLen : Option ℕ) (rf : ℚ) (avoid : Bool) (o : Oracle)
    (ptr : ℕ) : AttemptResult :=
  solveLoop g hubs target optLen rf avoid o max_steps (max_steps + 1)
    ⟨start, [start], 0, ptr⟩

/-- The fields of the `solve_puzzle` result dict the claims read. -/
structure PuzzleResult where
  path : List Word
  steps : ℕ
  solved : Bool
deriving Repr, DecidableEq

/-- The `for attempt in range(max_retries)` loop of `solve_puzzle`; the fuel
is the number of remaining attempts (so `remaining = 0` inside the body means
the current attempt is the last).  A solved attempt is returned iff it beats
`optimal_length + 1` or is the last one; otherwise the loop retries with more
randomness, and after the last attempt the last result is returned
(`best_result` in the Python is always `None` — dead code).  For
`max_retries = 0` Python raises `IndexError` on `attempts[-1]`; the model
returns the failed placeholder. -/
def retryLoop (g : Graph) (hubs : List Word) (start target : Word)
    (max_steps : ℕ) (optLen : Option ℕ) (o : Oracle) :
    ℕ → ℕ → ℕ → PuzzleResult
  | 0, _, _ => ⟨[start], 0, false⟩
  | remaining + 1, attempt, ptr =>
    let rf := min (9/10 : ℚ) (3/20 + (attempt : ℚ) * (1/20))
    let r := solve_single_attempt g hubs start target max_steps optLen rf
      (decide (0 < attempt)) o ptr
    if r.solved then
      if tooLongBy2 optLen r.steps then ⟨r.path, r.steps, true⟩
      else if remaining = 0 then ⟨r.path, r.steps, true⟩
      else retryLoop g hubs start target max_steps optLen o remaining (attempt + 1) r.ptr
    else if remaining = 0 then ⟨r.path, r.steps, false⟩
    else retryLoop g hubs start target max_steps optLen o remaining (attempt + 1) r.ptr

/-- `HeuristicSolver.solve_puzzle(start_word, target_word, max_steps,
max_retries)`. -/
def solve_puzzle (g : Graph) (start target : Word) (max_steps max_retries : ℕ)
    (o : Oracle) (ptr : ℕ) : PuzzleResult :=
  if start ∉ nodeKeys g ∨ target ∉ nodeKeys g then ⟨[start], 0, false⟩
  else if start = target then ⟨[start], 0, true⟩
  else
    retryLoop g (identify_hub_words g) start target max_steps
      (if findShortestPathH g start target = [] then none
       else some ((findShortestPathH g start target).length - 1))
      o max_retries 0 ptr

/-!
## Interactive playtest engine (`scripts/test_playtest_pairs_ab.py`)

The `GameState` pydantic model, checkpoint consumption and backtracking.
That script's `find_shortest_path` is the same linear-scan Dijkstra as the
generator's (`min(unvisited, key=...)` in place of the explicit scan), so it
is embedded by `findShortestPathG`.
-/

structure Checkpoint where
  word : Word
  index : ℕ
  ctype : String
  used : Bool
deriving Repr, DecidableEq

/-- One entry of `backtrack_history` (`"from"`/`"to"`/`"failed_path"`). -/
structure BacktrackEvent where
  fromWord : Word
  toWord : Word
  failed_path : List Word
deriving Repr, DecidableEq

structure GameState where
  current_word : Word
  target_word : Word
  path_so_far : List Word
  neighbors : List Word
  steps_taken : ℕ
  optimal_path : List Word
  suggested_path : List Word
  previous_distances : List ℤ
  rationales : List String
  invalid_moves : List Word
  checkpoints : List Checkpoint
  backtrack_history : List BacktrackEvent
  backtrack_attempts : ℕ
deriving Repr, DecidableEq

/-- `get_word_neighbors(graph_nodes, current_word)` of the playtest script
(dict order, filtered to words present in the graph). -/
def get_word_neighbors_ab (g : Graph) (w : Word) : List Word :=
  ((edgesOf g w).map Prod.fst).filter (fun n => decide (n ∈ nodeKeys g))

/-- The `for cp in state.checkpoints: if cp matches: cp["used"] = True; break`
loop: mark the first checkpoint with the given word and index as used. -/
def markUsed (w : Word) (i : ℕ) : List Checkpoint → List Checkpoint
  | [] => []
  | cp :: rest =>
    if cp.word = w ∧ cp.index = i then { cp with used := true } :: rest
    else cp :: markUsed w i rest

/-- `backtrack_to_checkpoint(state, checkpoint, graph_nodes, end_word)`; the
returned message string is purely diagnostic and omitted. -/
def backtrack_to_checkpoint (st : GameState) (cp : Checkpoint) (g : Graph)
    (end_word : Word) : GameState :=
  { st with
    backtrack_history := st.backtrack_history ++
      [⟨st.current_word, cp.word, st.path_so_far.drop cp.index⟩],
    backtrack_attempts := st.backtrack_attempts + 1,
    checkpoints := markUsed cp.word cp.index st.checkpoints,
    path_so_far := st.path_so_far.take (cp.index + 1),
    current_word := cp.word,
    steps_taken := cp.index,
    neighbors := get_word_neighbors_ab g cp.word,
    suggested_path := findShortestPathG g cp.word end_word,
    previous_distances := st.previous_distances.take (cp.index + 1),
    rationales := st.rationales.take cp.index,
    invalid_moves := [] }

/-- `get_available_backtrack_options(state)`: unused checkpoints whose word is
not the destination of any recorded backtrack event. -/
def get_available_backtrack_options (st : GameState) : List Checkpoint :=
  st.checkpoints.filter
    (fun cp => !cp.used && st.backtrack_history.all (fun ev => !(ev.toWord == cp.word)))

theorem markUsed_eq_set (w : Word) (i : ℕ) :
    ∀ (l : List Checkpoint) (j : ℕ) (cp : Checkpoint),
      l[j]? = some cp → cp.word = w → cp.index = i →
      (∀ k < j, ∀ cp2, l[k]? = some cp2 → ¬(cp2.word = w ∧ cp2.index = i)) →
      markUsed w i l = l.set j { cp with used := true } := by
  intro l
  induction l with
  | nil =>
    intro j cp hj _ _ _
    simp at hj
  | cons c0 rest ih =>
    intro j cp hj hw hi hfirst
    cases j with
    | zero =>
      simp only [List.getElem?_cons_zero, Option.some.injEq] at hj
      subst hj
      rw [markUsed, if_pos ⟨hw, hi⟩]
      rfl
    | succ k =>
      have h0 : ¬(c0.word = w ∧ c0.index = i) :=
        hfirst 0 (Nat.succ_pos k) c0 (by simp)
      rw [markUsed, if_neg h0]
      have hrest : markUsed w i rest = rest.set k { cp with used := true } := by
        apply ih k cp _ hw hi
        · intro m hm cp2 hm2
          exact hfirst (m + 1) (by omega) cp2 (by simpa using hm2)
        · simpa using hj
      rw [hrest]
      rfl

theorem mem_backtrack_options {st : GameState} {cp : Checkpoint}
    (h : cp ∈ get_available_backtrack_options st) :
    cp ∈ st.checkpoints ∧ cp.used = false ∧
    ∀ ev ∈ st.backtrack_history, ev.toWord ≠ cp.word := by
  unfold get_available_backtrack_options at h
  rw [List.mem_filter] at h
  obtain ⟨hmem, hcond⟩ := h
  rw [Bool.and_eq_true] at hcond
  refine ⟨hmem, ?_, ?_⟩
  · simpa using hcond.1
  · intro ev hev
    have := List.all_eq_true.mp hcond.2 ev hev
    simpa using this

/-- A backtrack to an offered option appends its word as a fresh history
destination: destination words stay pairwise distinct. -/
theorem backtrack_history_nodup {st : GameState} {cp : Checkpoint} (g : Graph)
    (e : Word) (hcp : cp ∈ get_available_backtrack_options st)
    (hnd : (st.backtrack_history.map BacktrackEvent.toWord).Nodup) :
    ((backtrack_to_checkpoint st cp g e).backtrack_history.map
      BacktrackEvent.toWord).Nodup := by
  obtain ⟨-, -, hfresh⟩ := mem_backtrack_options hcp
  unfold backtrack_to_checkpoint
  dsimp only
  rw [List.map_append]
  apply List.Nodup.append hnd (List.nodup_singleton _)
  intro a ha hb
  simp only [List.map_cons, List.map_nil, List.mem_singleton] at hb
  subst hb
  simp only [List.mem_map] at ha
  obtain ⟨ev, hev, heve⟩ := ha
  exact hfresh ev hev heve

/-!
## Supporting lemmas for the claim theorems
-/

theorem edgesOf_all_nil {g : Graph} (h : ∀ p ∈ g, p.2.edges = []) :
    ∀ u, edgesOf g u = [] := by
  intro u
  unfold edgesOf
  cases hl : lookupNode g u with
  | none => rfl
  | some n => exact h _ (lookupNode_mem hl)

/-- In a graph with no edges, no word reaches a different word. -/
theorem no_reach_of_no_edges {g : Graph} (hE : ∀ u, edgesOf g u = [])
    {a b : Word} (hab : a ≠ b) : ∀ c, ¬ Reaches g a b c := by
  intro c h
  cases h with
  | refl _ => exact hab rfl
  | step _ he =>
    rw [hE] at he
    exact absurd he (List.not_mem_nil _)

theorem tooLongBy2_of_one (optLen : Option ℕ) : tooLongBy2 optLen 1 = false := by
  cases optLen with
  | none => rfl
  | some L =>
    simp only [tooLongBy2, decide_eq_false_iff_not]
    omega

/-- With avoidance off, a single loop iteration whose neighbor list contains
the target goes straight to the target. -/
theorem solveStep_direct (g : Graph) (hubs : List Word) (target : Word)
    (optLen : Option ℕ) (rf : ℚ) (o : Oracle) (st : AttemptState)
    (hnb : target ∈ get_word_neighbors g st.current_word) :
    solveStep g hubs target optLen rf false o st =
      .done ⟨st.path ++ [target], st.steps + 1, true, st.ptr⟩ := by
  unfold solveStep
  dsimp only
  rw [if_neg (List.ne_nil_of_mem hnb)]
  rw [if_pos hnb]
  rw [if_neg (by simp), if_neg (by simp)]

/-- With avoidance off, a single attempt whose start has the target as a
direct neighbor returns the two-word path after one step. -/
theorem solve_single_attempt_direct (g : Graph) (hubs : List Word)
    (start target : Word) (max_steps : ℕ) (optLen : Option ℕ) (rf : ℚ)
    (o : Oracle) (ptr : ℕ) (hne : start ≠ target) (hms : 1 ≤ max_steps)
    (hnb : target ∈ get_word_neighbors g start) :
    solve_single_attempt g hubs start target max_steps optLen rf false o ptr =
      ⟨[start, target], 1, true, ptr⟩ := by
  unfold solve_single_attempt
  rw [solveLoop]
  dsimp only
  rw [if_pos ⟨hms, hne⟩]
  rw [solveStep_direct g hubs target optLen rf o ⟨start, [start], 0, ptr⟩ hnb]
  dsimp only
  rfl

/-!
## Concrete instances

Small graphs and oracle streams used to instantiate the claim theorems and to
exhibit counterexamples.  `demoGraph` is the four-node example of the spec
(A–B 0.9, A–C 0.5, B–D 0.8).
-/

def demoGraph : Graph :=
  [("A", ⟨[("B", 9/10), ("C", 1/2)], []⟩),
   ("B", ⟨[("A", 9/10), ("D", 4/5)], []⟩),
   ("C", ⟨[("A", 1/2)], []⟩),
   ("D", ⟨[("B", 4/5)], []⟩)]

/-- Two keyed nodes with no edges: a present but unreachable pair. -/
def gU : Graph := [("A", ⟨[], []⟩), ("B", ⟨[], []⟩)]

/-- A five-node graph where the optimal route A–B–T (cost 0.2) competes with
the detour A–C–D–T (cost 0.6). -/
def G5 : Graph :=
  [("A", ⟨[("B", 9/10), ("C", 4/5)], []⟩),
   ("B", ⟨[("A", 9/10), ("T", 9/10)], []⟩),
   ("C", ⟨[("D", 4/5), ("A", 7/10)], []⟩),
   ("D", ⟨[("T", 4/5), ("C", 7/10)], []⟩),
   ("T", ⟨[("B", 9/10), ("D", 4/5)], []⟩)]

/-- An RNG trace for `G5`: the first `random.random()` draw fires the
randomized top-5 choice and the `random.choice` pick selects the second-best
neighbor; later draws stay below no threshold. -/
def cexOracle : Oracle := ⟨fun i => if i = 0 then 0 else 1/2, fun _ => 1⟩

/-- A two-word cycle A–B with the target T unreachable from it. -/
def g2 : Graph :=
  [("A", ⟨[("B", 1/2)], []⟩), ("B", ⟨[("A", 1/2)], []⟩), ("T", ⟨[("A", 1/2)], []⟩)]

def oZero : Oracle := ⟨fun _ => 0, fun _ => 0⟩

/-- A mid-attempt state cycling between A and B for ten entries. -/
def wSt : AttemptState :=
  ⟨"A", ["A", "B", "A", "B", "A", "B", "A", "B", "A", "B"], 9, 0⟩

/-- Draws that fire the randomized choice and pick index 1. -/
def wOracle : Oracle := ⟨fun _ => 0, fun _ => 1⟩

/-- A similarity matrix with self-similarity 1 and all cross similarities tied
at 1/2. -/
def cexSim : ℕ → ℕ → ℚ := fun i j => if i = j then 1 else 1/2

/-- A nine-word graph holding one valid pair: the chain a–b–c–d–e (four edges
of similarity 0.9), with stub neighbors padding the degrees of a and e to 3
and t-SNE coordinates 100 apart. -/
def gW : Graph :=
  [("a", ⟨[("b", 9/10), ("x1", 1/10), ("x2", 1/10)], [0, 0]⟩),
   ("b", ⟨[("a", 9/10), ("c", 9/10)], [0, 0]⟩),
   ("c", ⟨[("b", 9/10), ("d", 9/10)], [0, 0]⟩),
   ("d", ⟨[("c", 9/10), ("e", 9/10)], [0, 0]⟩),
   ("e", ⟨[("d", 9/10), ("y1", 1/10), ("y2", 1/10)], [100, 0]⟩),
   ("x1", ⟨[("a", 1/10)], [0, 0]⟩),
   ("x2", ⟨[("a", 1/10)], [0, 0]⟩),
   ("y1", ⟨[("e", 1/10)], [0, 0]⟩),
   ("y2", ⟨[("e", 1/10)], [0, 0]⟩)]

def wWords : List Word := ["a", "b", "c", "d", "e", "x1", "x2", "y1", "y2"]

/-- Index draws selecting a (index 0) then e (index 4). -/
def oW : ℕ → ℕ := fun i => if i = 0 then 0 else 4

/-- A chunk state still requesting one pair of length 4. -/
def chunkInit40 : ChunkState := ⟨[], [], [], [], [(4, 1)], 0, false⟩

/-- A game state for backtracking: three moves in, two checkpoints. -/
def stW : GameState :=
  { current_word := "c", target_word := "e",
    path_so_far := ["a", "b", "c"], neighbors := [],
    steps_taken := 2, optimal_path := [], suggested_path := [],
    previous_distances := [2, 2, 2], rationales := [], invalid_moves := [],
    checkpoints := [⟨"a", 0, "G", false⟩, ⟨"b", 1, "G", false⟩],
    backtrack_history := [], backtrack_attempts := 0 }

/-- A game state with one consumed backtrack destination (y) and one offered
checkpoint (b). -/
def stW2 : GameState :=
  { current_word := "c", target_word := "e",
    path_so_far := ["a", "b", "c"], neighbors := [],
    steps_taken := 2, optimal_path := [], suggested_path := [],
    previous_distances := [2, 2, 2], rationales := [], invalid_moves := [],
    checkpoints := [⟨"y", 0, "G", false⟩, ⟨"b", 1, "L", false⟩],
    backtrack_history := [⟨"x", "y", []⟩], backtrack_attempts := 1 }

/-- The spec's anti-cycle property as stated, formalized for refutation: at
every position of a single attempt's final path where the preceding five
entries collapse to at most two distinct words, the entry chosen there is a
hub word that does not occur among the preceding three entries. -/
def C9Claim : Prop :=
  ∀ (g : Graph) (start target : Word) (max_steps : ℕ) (optLen : Option ℕ)
    (rf : ℚ) (avoid : Bool) (o : Oracle) (ptr k : ℕ),
    5 ≤ k →
    k < (solve_single_attempt g (identify_hub_words g) start target max_steps
      optLen rf avoid o ptr).path.length →
    (lastN 5 ((solve_single_attempt g (identify_hub_words g) start target
      max_steps optLen rf avoid o ptr).path.take k)).dedup.length ≤ 2 →
    (solve_single_attempt g (identify_hub_words g) start target max_steps
      optLen rf avoid o ptr).path.getD k "" ∈ identify_hub_words g ∧
    (solve_single_attempt g (identify_hub_words g) start target max_steps
      optLen rf avoid o ptr).path.getD k "" ∉
      lastN 3 ((solve_single_attempt g (identify_hub_words g) start target
        max_steps optLen rf avoid o ptr).path.take k)

/-!
## Claim theorems
-/

/-- C1: for every well-formed graph and words a, b, whichever implementation
of `find_shortest_path` (the generator's linear-scan one or the solver's
heap one) returns a non-empty path, that path starts at a, ends at b, walks
along edges of the graph, its total cost Σ (1 − similarity) equals the
Dijkstra distance recorded for b, and no path from a to b is cheaper.  In the
solver's `start == end` early-return case (where no distance is recorded) the
path is `[a]` with cost 0, which no path can beat. -/
theorem claim_C1 (g : Graph) (hWF : WFGraph g) (a b : Word) :
    (findShortestPathG g a b ≠ [] →
      (findShortestPathG g a b).head? = some a ∧
      (findShortestPathG g a b).getLast? = some b ∧
      List.Chain' (fun x y => ∃ s, (y, s) ∈ edgesOf g x) (findShortestPathG g a b) ∧
      ∃ d, dijkstraDistG g a b = some d ∧
        costOf g (findShortestPathG g a b) = some d ∧
        ∀ q cq, q.head? = some a → q.getLast? = some b → costOf g q = some cq → d ≤ cq) ∧
    (a ≠ b → findShortestPathH g a b ≠ [] →
      (findShortestPathH g a b).head? = some a ∧
      (findShortestPathH g a b).getLast? = some b ∧
      List.Chain' (fun x y => ∃ s, (y, s) ∈ edgesOf g x) (findShortestPathH g a b) ∧
      ∃ d, dijkstraDistH g a b = some d ∧
        costOf g (findShortestPathH g a b) = some d ∧
        ∀ q cq, q.head? = some a → q.getLast? = some b → costOf g q = some cq → d ≤ cq) ∧
    (a = b → findShortestPathH g a b ≠ [] →
      findShortestPathH g a b = [a] ∧ costOf g (findShortestPathH g a b) = some 0 ∧
      ∀ q cq, q.head? = some a → q.getLast? = some b → costOf g q = some cq → 0 ≤ cq) := by
  refine ⟨fun hne => findShortestPathG_correct g hWF a b hne,
          fun hab hne => findShortestPathH_correct g hWF a b hne hab, ?_⟩
  intro hab hne
  subst hab
  have ha : a ∈ nodeKeys g := by
    by_contra hma
    exact hne (findShortestPathH_absent g a a (fun hc => hma hc.1))
  have hself := findShortestPathH_self g a ha
  refine ⟨hself, by rw [hself]; rfl, ?_⟩
  intro q cq hqh hql hqc
  exact Reaches.nonneg hWF (reaches_of_costOf hWF q a a cq ha hqh hql hqc)

theorem claim_C1_witness :
    WFGraph demoGraph ∧ findShortestPathG demoGraph "A" "D" ≠ [] ∧
    ("A" : Word) ≠ "D" ∧ findShortestPathH demoGraph "A" "D" ≠ [] ∧
    (findShortestPathG demoGraph "A" "D").head? = some "A" ∧
    (findShortestPathH demoGraph "A" "D").getLast? = some "D" := by
  have hwf : WFGraph demoGraph := by with_unfolding_all decide
  have hg : findShortestPathG demoGraph "A" "D" ≠ [] := by with_unfolding_all decide
  have hh : findShortestPathH demoGraph "A" "D" ≠ [] := by with_unfolding_all decide
  have had : ("A" : Word) ≠ "D" := by decide
  refine ⟨hwf, hg, had, hh, ?_, ?_⟩
  · exact ((claim_C1 demoGraph hwf "A" "D").1 hg).1
  · exact ((claim_C1 demoGraph hwf "A" "D").2.1 had hh).2.1

/-- C2 (amended): for every word w of a graph produced by `build_graph` over
distinct words with parameter K ≥ 1, the edge map of w has at most K entries,
w is not a key of its own edge map, and the edges are ordered by
non-increasing similarity — descending, but not strictly so when two
neighbors share a similarity score (see the counterexample). -/
theorem claim_C2 (words : List Word) (sim : ℕ → ℕ → ℚ) (k : ℕ)
    (tsneMap : Word → Option (List ℚ)) (hnd : words.Nodup) (hk : 1 ≤ k)
    (w : Word) (nd : Node) (hmem : (w, nd) ∈ buildGraphNodes words sim k tsneMap) :
    nd.edges.length ≤ k ∧ w ∉ nd.edges.map Prod.fst ∧
    List.Pairwise (fun p q : Word × ℚ => q.2 ≤ p.2) nd.edges := by
  unfold buildGraphNodes at hmem
  rw [List.mem_map] at hmem
  obtain ⟨i, hi, heq⟩ := hmem
  rw [List.mem_range] at hi
  have h1 := buildNode_edges_le words sim k tsneMap i hk
  have h2 := buildNode_no_self words sim k tsneMap i hnd hi
  have h3 := buildNode_edges_sorted words sim k tsneMap i
  rw [heq] at h1 h2 h3
  exact ⟨h1, h2, h3⟩

/-- C2 counterexample: with three distinct words whose cross similarities are
all tied at 1/2 and K = 2, the built node for w carries the two edges
(y, 1/2), (x, 1/2) — a legal output in which the edge list is not strictly
descending, refuting the claim's strictness. -/
theorem claim_C2_counterexample :
    (["w", "x", "y"] : List Word).Nodup ∧
    ("w", Node.mk [("y", 1/2), ("x", 1/2)] [0, 0]) ∈
      buildGraphNodes ["w", "x", "y"] cexSim 2 (fun _ => none) ∧
    ¬ List.Pairwise (fun p q : Word × ℚ => q.2 < p.2)
      (Node.mk [("y", 1/2), ("x", 1/2)] [0, 0]).edges := by
  with_unfolding_all decide

theorem claim_C2_witness :
    (["w", "x", "y"] : List Word).Nodup ∧ 1 ≤ 2 ∧
    ("w", Node.mk [("y", 1/2), ("x", 1/2)] [0, 0]) ∈
      buildGraphNodes ["w", "x", "y"] cexSim 2 (fun _ => none) ∧
    ((Node.mk [("y", 1/2), ("x", 1/2)] [0, 0]).edges.length ≤ 2 ∧
     "w" ∉ (Node.mk [("y", 1/2), ("x", 1/2)] [0, 0]).edges.map Prod.fst ∧
     List.Pairwise (fun p q : Word × ℚ => q.2 ≤ p.2)
       (Node.mk [("y", 1/2), ("x", 1/2)] [0, 0]).edges) := by
  refine ⟨by decide, by decide, by with_unfolding_all decide, ?_⟩
  exact claim_C2 ["w", "x", "y"] cexSim 2 (fun _ => none) (by decide) (by decide)
    "w" (Node.mk [("y", 1/2), ("x", 1/2)] [0, 0]) (by with_unfolding_all decide)

/-- C3 (amended): each candidate-pair search performs at most
`MAX_ATTEMPTS_PER_PAIR` sampling attempts, and the `generate_chunk` loop
terminates when the requested counts are all zero; but the loop does NOT
terminate on every input — when no valid pair exists for a still-requested
path length, `generate_valid_pair` keeps returning `None` and the guard never
changes (see the counterexample). -/
theorem claim_C3 (g : Graph) (words usedS usedT : List Word) (tlen : Option ℕ)
    (o : ℕ → ℕ) (innerFuel ptr : ℕ) (st : ChunkState)
    (hz : ∀ p ∈ st.needed_pairs, p.2 = 0) :
    (generate_valid_pair g words usedS usedT tlen o innerFuel ptr).attempts ≤
      MAX_ATTEMPTS_PER_PAIR ∧
    ChunkTerminates g words o innerFuel st := by
  constructor
  · exact generate_valid_pair_attempts g words usedS usedT tlen o innerFuel ptr
  · refine ⟨0, ?_⟩
    show chunkDone st = true
    unfold chunkDone
    rw [Bool.or_eq_true]
    right
    rw [List.all_eq_true]
    intro p hp
    simp [hz p hp]

/-- C3 counterexample: with an empty word list (so `generate_valid_pair`
returns `None` immediately) and one still-requested pair of length 4, every
iteration of `generate_chunk` leaves the state unchanged while the guard stays
true, so the loop never terminates — refuting the claim's "terminates on
every input". -/
theorem claim_C3_counterexample :
    ¬ ChunkTerminates [] [] (fun _ => 0) 10 chunkInit40 := by
  apply chunk_nonterminating
  · with_unfolding_all decide
  · rfl

theorem claim_C3_witness :
    (∀ p ∈ ([(4, 0)] : List (ℕ × ℕ)), p.2 = 0) ∧
    (generate_valid_pair [] [] [] [] none (fun _ => 0) 10 0).attempts ≤
      MAX_ATTEMPTS_PER_PAIR ∧
    ChunkTerminates [] [] (fun _ => 0) 10 ⟨[], [], [], [], [(4, 0)], 0, false⟩ := by
  refine ⟨by decide, ?_, ?_⟩
  · exact (claim_C3 [] [] [] [] none (fun _ => 0) 10 0
      ⟨[], [], [], [], [(4, 0)], 0, false⟩ (by decide)).1
  · exact (claim_C3 [] [] [] [] none (fun _ => 0) 10 0
      ⟨[], [], [], [], [(4, 0)], 0, false⟩ (by decide)).2

/-- C4: every pair emitted by `generate_valid_pair` records a `pathLength`
equal to the edge count of the recomputed shortest path between its start and
target in the same graph, and that length lies within
`[MIN_PATH_LENGTH, MAX_PATH_LENGTH]`. -/
theorem claim_C4 (g : Graph) (words usedS usedT : List Word) (tlen : Option ℕ)
    (o : ℕ → ℕ) (innerFuel ptr : ℕ) (p : Pair)
    (h : (generate_valid_pair g words usedS usedT tlen o innerFuel ptr).result = some p) :
    p.pathLength = pathLenOf g p.startWord p.targetWord ∧
    MIN_PATH_LENGTH ≤ p.pathLength ∧ p.pathLength ≤ MAX_PATH_LENGTH := by
  obtain ⟨h1, h2, h3, -, -⟩ :=
    generate_valid_pair_some g words usedS usedT tlen o innerFuel ptr p h
  exact ⟨h1, h2, h3⟩

theorem claim_C4_witness :
    (generate_valid_pair gW wWords [] [] none oW 1 0).result =
      some ⟨"a", "e", 4⟩ ∧
    ((Pair.mk "a" "e" 4).pathLength = pathLenOf gW "a" "e" ∧
     MIN_PATH_LENGTH ≤ (Pair.mk "a" "e" 4).pathLength ∧
     (Pair.mk "a" "e" 4).pathLength ≤ MAX_PATH_LENGTH) := by
  have h : (generate_valid_pair gW wWords [] [] none oW 1 0).result =
      some ⟨"a", "e", 4⟩ := by with_unfolding_all decide
  exact ⟨h, claim_C4 gW wWords [] [] none oW 1 0 ⟨"a", "e", 4⟩ h⟩

/-- C5: on a well-formed graph, both implementations return `[a]` for
`find_shortest_path(g, a, a)` when a is present (with cost 0 — the generator's
version also records Dijkstra distance 0), and both return the empty sequence
when a or b is absent, and when b is unreachable from a. -/
theorem claim_C5 (g : Graph) (hWF : WFGraph g) (a b : Word) :
    (a ∈ nodeKeys g →
      findShortestPathG g a a = [a] ∧ dijkstraDistG g a a = some 0 ∧
      findShortestPathH g a a = [a] ∧ costOf g [a] = some 0) ∧
    (¬(a ∈ nodeKeys g ∧ b ∈ nodeKeys g) →
      findShortestPathG g a b = [] ∧ findShortestPathH g a b = []) ∧
    ((∀ c, ¬ Reaches g a b c) → a ∈ nodeKeys g → b ∈ nodeKeys g →
      findShortestPathG g a b = [] ∧ findShortestPathH g a b = []) := by
  refine ⟨?_, ?_, ?_⟩
  · intro ha
    obtain ⟨h1, h2⟩ := findShortestPathG_self g a ha
    exact ⟨h1, h2, findShortestPathH_self g a ha, rfl⟩
  · intro h
    exact ⟨findShortestPathG_absent g a b h, findShortestPathH_absent g a b h⟩
  · intro hur ha hb
    have hab : a ≠ b := by
      intro he
      subst he
      exact hur 0 (Reaches.refl ha)
    exact ⟨findShortestPathG_unreachable g hWF a b ha hb hur,
           findShortestPathH_unreachable g hWF a b ha hb hab hur⟩

theorem claim_C5_witness :
    WFGraph demoGraph ∧ ("A" : Word) ∈ nodeKeys demoGraph ∧
    (findShortestPathG demoGraph "A" "A" = ["A"] ∧
     dijkstraDistG demoGraph "A" "A" = some 0 ∧
     findShortestPathH demoGraph "A" "A" = ["A"] ∧
     costOf demoGraph ["A"] = some 0) ∧
    (findShortestPathG demoGraph "A" "Z" = [] ∧
     findShortestPathH demoGraph "A" "Z" = []) ∧
    WFGraph gU ∧
    (findShortestPathG gU "A" "B" = [] ∧ findShortestPathH gU "A" "B" = []) := by
  have hwf : WFGraph demoGraph := by with_unfolding_all decide
  have hwfU : WFGraph gU := by with_unfolding_all decide
  have ha : ("A" : Word) ∈ nodeKeys demoGraph := by decide
  refine ⟨hwf, ha, (claim_C5 demoGraph hwf "A" "Z").1 ha,
    (claim_C5 demoGraph hwf "A" "Z").2.1 (by decide), hwfU, ?_⟩
  refine (claim_C5 gU hwfU "A" "B").2.2 ?_ (by decide) (by decide)
  exact no_reach_of_no_edges (edgesOf_all_nil (by decide)) (by decide)

/-- C6: within one generated chunk (started with an empty pair list, any
previously used word sets and any requested counts), after any number of loop
iterations no two collected pairs share a start word and no two share a
target word. -/
theorem claim_C6 (g : Graph) (words : List Word) (o : ℕ → ℕ) (innerFuel : ℕ)
    (usedS usedT : List Word) (needed : List (ℕ × ℕ)) (ptr n : ℕ) :
    ((chunkRun g words o innerFuel n
        ⟨[], [], usedS, usedT, needed, ptr, false⟩).chunk_pairs.map
        Pair.startWord).Nodup ∧
    ((chunkRun g words o innerFuel n
        ⟨[], [], usedS, usedT, needed, ptr, false⟩).chunk_pairs.map
        Pair.targetWord).Nodup := by
  have h := chunkRun_inv g words o innerFuel n
    ⟨[], [], usedS, usedT, needed, ptr, false⟩
    ⟨List.nodup_nil, List.nodup_nil, by simp⟩
  exact ⟨h.1, h.2.1⟩

/-- C7: a backtrack to the first checkpoint matching a recorded (word, index)
pair — the one the marking loop stops at — truncates the path to its first
index+1 entries and sets exactly that checkpoint's used flag, leaving every
other list position unchanged. -/
theorem claim_C7 (st : GameState) (cp : Checkpoint) (g : Graph) (e : Word)
    (j : ℕ) (hj : st.checkpoints[j]? = some cp)
    (hfirst : ∀ k < j, ∀ cp2, st.checkpoints[k]? = some cp2 →
      ¬(cp2.word = cp.word ∧ cp2.index = cp.index))
    (hlen : cp.index + 1 ≤ st.path_so_far.length) :
    (backtrack_to_checkpoint st cp g e).path_so_far.length = cp.index + 1 ∧
    (backtrack_to_checkpoint st cp g e).checkpoints =
      st.checkpoints.set j { cp with used := true } ∧
    (backtrack_to_checkpoint st cp g e).checkpoints[j]? =
      some { cp with used := true } ∧
    ∀ k, k ≠ j → (backtrack_to_checkpoint st cp g e).checkpoints[k]? =
      st.checkpoints[k]? := by
  have hjl : j < st.checkpoints.length := by
    by_contra hc
    rw [List.getElem?_eq_none (by omega)] at hj
    cases hj
  have hset : markUsed cp.word cp.index st.checkpoints =
      st.checkpoints.set j { cp with used := true } :=
    markUsed_eq_set cp.word cp.index st.checkpoints j cp hj rfl rfl hfirst
  refine ⟨?_, ?_, ?_, ?_⟩
  · unfold backtrack_to_checkpoint
    dsimp only
    rw [List.length_take]
    omega
  · unfold backtrack_to_checkpoint
    dsimp only
    exact hset
  · unfold backtrack_to_checkpoint
    dsimp only
    rw [hset]
    simp [List.getElem?_set_self', hjl]
  · intro k hk
    unfold backtrack_to_checkpoint
    dsimp only
    rw [hset]
    rw [List.getElem?_set_ne (fun he => hk he.symm)]

theorem claim_C7_witness :
    stW.checkpoints[1]? = some ⟨"b", 1, "G", false⟩ ∧
    (1 + 1 ≤ stW.path_so_far.length) ∧
    (backtrack_to_checkpoint stW ⟨"b", 1, "G", false⟩ [] "e").path_so_far.length = 1 + 1 ∧
    (backtrack_to_checkpoint stW ⟨"b", 1, "G", false⟩ [] "e").checkpoints =
      stW.checkpoints.set 1 ⟨"b", 1, "G", true⟩ := by
  have hj : stW.checkpoints[1]? = some ⟨"b", 1, "G", false⟩ := by decide
  have hfirst : ∀ k < 1, ∀ cp2, stW.checkpoints[k]? = some cp2 →
      ¬(cp2.word = (Checkpoint.mk "b" 1 "G" false).word ∧
        cp2.index = (Checkpoint.mk "b" 1 "G" false).index) := by
    intro k hk cp2 h
    interval_cases k
    have : cp2 = ⟨"a", 0, "G", false⟩ := by
      simp only [stW] at h
      simp at h
      exact h.symm
    subst this
    decide
  have h := claim_C7 stW ⟨"b", 1, "G", false⟩ [] "e" 1 hj hfirst (by decide)
  exact ⟨hj, by decide, h.1, h.2.1⟩

/-- C8 (amended): with avoidance disabled (maxRetries = 1), `solve_puzzle` is
not guaranteed to find an optimal path — its randomized scoring can commit to
a suboptimal neighbor (see the counterexample) — but it does return the
optimal one-step path whenever the target is a direct neighbor of the
start. -/
theorem claim_C8 (g : Graph) (start target : Word) (max_steps : ℕ) (o : Oracle)
    (ptr : ℕ) (hs : start ∈ nodeKeys g) (ht : target ∈ nodeKeys g)
    (hne : start ≠ target) (hms : 1 ≤ max_steps)
    (hnb : target ∈ get_word_neighbors g start) :
    solve_puzzle g start target max_steps 1 o ptr = ⟨[start, target], 1, true⟩ := by
  unfold solve_puzzle
  rw [if_neg (by push_neg; exact ⟨hs, ht⟩)]
  rw [if_neg hne]
  rw [retryLoop]
  have hdec : decide (0 < 0) = false := rfl
  rw [hdec]
  rw [solve_single_attempt_direct g (identify_hub_words g) start target
    max_steps _ _ o ptr hne hms hnb]
  dsimp only
  rw [if_pos rfl]
  rw [tooLongBy2_of_one]
  simp

/-- C8 counterexample: on the well-formed graph G5 the optimal route from A
to T is the two-step A–B–T (cost 1/5), yet with avoidance disabled and
maxRetries = 1 a run whose first randomness draw fires the top-5 random pick
returns the three-step solution A–C–D–T: the solver does not find the optimal
path although one exists through available neighbor edges. -/
theorem claim_C8_counterexample :
    WFGraph G5 ∧
    (solve_puzzle G5 "A" "T" 30 1 cexOracle 0).solved = true ∧
    (solve_puzzle G5 "A" "T" 30 1 cexOracle 0).steps = 3 ∧
    findShortestPathH G5 "A" "T" = ["A", "B", "T"] ∧
    costOf G5 ["A", "B", "T"] = some (1/5) := by
  with_unfolding_all decide

theorem claim_C8_witness :
    ("A" : Word) ∈ nodeKeys demoGraph ∧ ("B" : Word) ∈ nodeKeys demoGraph ∧
    ("A" : Word) ≠ "B" ∧ 1 ≤ 30 ∧
    ("B" : Word) ∈ get_word_neighbors demoGraph "A" ∧
    solve_puzzle demoGraph "A" "B" 30 1 oZero 0 = ⟨["A", "B"], 1, true⟩ := by
  refine ⟨by decide, by decide, by decide, by decide,
    by with_unfolding_all decide, ?_⟩
  exact claim_C8 demoGraph "A" "B" 30 oZero 0 (by decide) (by decide)
    (by decide) (by decide) (by with_unfolding_all decide)

/-- C9 (amended): the anti-cycle escape fires only under the conditions the
code actually checks — the path including the word just chosen must exceed 10
entries, its last five entries must collapse to at most two distinct words,
and an unvisited hub neighbor must exist; when all three hold, the solver
appends a hub word that is not among the last three path entries (on top of
the regularly chosen word). -/
theorem claim_C9 (g : Graph) (hubs : List Word) (target : Word) (rf : ℚ)
    (o : Oracle) (nbrs : List Word) (ptr : ℕ) (st : AttemptState)
    (hnb : nbrs ≠ [])
    (hlen : 10 < (st.path ++ [(chosenWord g hubs target rf o nbrs ptr st).1]).length)
    (hcol : (lastN 5 (st.path ++
      [(chosenWord g hubs target rf o nbrs ptr st).1])).dedup.length ≤ 2)
    (hhub : nbrs.filter (fun n => decide (n ∈ hubs ∧
      n ∉ lastN 3 (st.path ++ [(chosenWord g hubs target rf o nbrs ptr st).1]))) ≠ []) :
    ∃ h2, h2 ∈ hubs ∧
      h2 ∉ lastN 3 (st.path ++ [(chosenWord g hubs target rf o nbrs ptr st).1]) ∧
      solveScore g hubs target rf o nbrs ptr st =
        .next ⟨h2, (st.path ++ [(chosenWord g hubs target rf o nbrs ptr st).1]) ++ [h2],
          st.steps + 2, (chosenWord g hubs target rf o nbrs ptr st).2 + 1⟩ := by
  have hpos : 0 < (nbrs.filter (fun n => decide (n ∈ hubs ∧
      n ∉ lastN 3 (st.path ++ [(chosenWord g hubs target rf o nbrs ptr st).1])))).length :=
    List.length_pos.mpr hhub
  have hidx : o.pick (chosenWord g hubs target rf o nbrs ptr st).2 %
      (nbrs.filter (fun n => decide (n ∈ hubs ∧
        n ∉ lastN 3 (st.path ++ [(chosenWord g hubs target rf o nbrs ptr st).1])))).length <
      (nbrs.filter (fun n => decide (n ∈ hubs ∧
        n ∉ lastN 3 (st.path ++ [(chosenWord g hubs target rf o nbrs ptr st).1])))).length :=
    Nat.mod_lt _ hpos
  have hmem : (nbrs.filter (fun n => decide (n ∈ hubs ∧
      n ∉ lastN 3 (st.path ++ [(chosenWord g hubs target rf o nbrs ptr st).1])))).getD
        (o.pick (chosenWord g hubs target rf o nbrs ptr st).2 %
          (nbrs.filter (fun n => decide (n ∈ hubs ∧
            n ∉ lastN 3 (st.path ++ [(chosenWord g hubs target rf o nbrs ptr st).1])))).length)
        "" ∈
      nbrs.filter (fun n => decide (n ∈ hubs ∧
        n ∉ lastN 3 (st.path ++ [(chosenWord g hubs target rf o nbrs ptr st).1]))) := by
    rw [List.getD_eq_get _ "" hidx]
    exact List.get_mem _ _ _
  have hprops := of_decide_eq_true (List.mem_filter.mp hmem).2
  refine ⟨_, hprops.1, hprops.2, ?_⟩
  unfold solveScore
  rw [if_neg hnb]
  rw [if_pos ⟨hlen, hcol⟩]
  rw [if_neg hhub]

theorem claim_C9_witness :
    (["B", "H"] : List Word) ≠ [] ∧
    10 < (wSt.path ++ [(chosenWord [] ["H"] "T" (9/10) wOracle ["B", "H"] 0 wSt).1]).length ∧
    (lastN 5 (wSt.path ++
      [(chosenWord [] ["H"] "T" (9/10) wOracle ["B", "H"] 0 wSt).1])).dedup.length ≤ 2 ∧
    (["B", "H"] : List Word).filter (fun n => decide (n ∈ (["H"] : List Word) ∧
      n ∉ lastN 3 (wSt.path ++
        [(chosenWord [] ["H"] "T" (9/10) wOracle ["B", "H"] 0 wSt).1]))) ≠ [] ∧
    ∃ h2, h2 ∈ (["H"] : List Word) ∧
      h2 ∉ lastN 3 (wSt.path ++
        [(chosenWord [] ["H"] "T" (9/10) wOracle ["B", "H"] 0 wSt).1]) ∧
      solveScore [] ["H"] "T" (9/10) wOracle ["B", "H"] 0 wSt =
        .next ⟨h2, (wSt.path ++
          [(chosenWord [] ["H"] "T" (9/10) wOracle ["B", "H"] 0 wSt).1]) ++ [h2],
          wSt.steps + 2, (chosenWord [] ["H"] "T" (9/10) wOracle ["B", "H"] 0 wSt).2 + 1⟩ := by
  refine ⟨by decide, by with_unfolding_all decide, by with_unfolding_all decide,
    by with_unfolding_all decide, ?_⟩
  exact claim_C9 [] ["H"] "T" (9/10) wOracle ["B", "H"] 0 wSt (by decide)
    (by with_unfolding_all decide) (by with_unfolding_all decide)
    (by with_unfolding_all decide)

/-- C9 counterexample: in the two-word cycle of g2 a failed attempt ends with
path A,B,A,B,A,B,A,B; at position 5 the preceding five entries collapse to the
two words A, B, yet the entry chosen there is B — not a hub word (the hub list
is [A]) — because the code's escape additionally requires more than 10 path
entries.  The claim as stated is false. -/
theorem claim_C9_counterexample : WFGraph g2 ∧ ¬ C9Claim := by
  constructor
  · with_unfolding_all decide
  · intro h
    have h5 := h g2 "A" "T" 7 none (3/20) false oZero 0 5 (by omega)
      (by with_unfolding_all decide) (by with_unfolding_all decide)
    have hnh : ¬ ((solve_single_attempt g2 (identify_hub_words g2) "A" "T" 7
        none (3/20) false oZero 0).path.getD 5 "" ∈ identify_hub_words g2) := by
      with_unfolding_all decide
    exact hnh h5.1

/-- C10: a checkpoint is offered as a backtrack option only if its used flag
is false and its word is not the destination of any recorded backtrack event
(so an unused checkpoint on an already-revisited word is excluded), and
backtracking to an offered option keeps the history's destination words
pairwise distinct — the engine never backtracks to the same word twice. -/
theorem claim_C10 (st : GameState) (cp : Checkpoint) (g : Graph) (e : Word)
    (hcp : cp ∈ get_available_backtrack_options st)
    (hnd : (st.backtrack_history.map BacktrackEvent.toWord).Nodup) :
    cp.used = false ∧
    (∀ ev ∈ st.backtrack_history, ev.toWord ≠ cp.word) ∧
    ((backtrack_to_checkpoint st cp g e).backtrack_history.map
      BacktrackEvent.toWord).Nodup := by
  obtain ⟨-, h1, h2⟩ := mem_backtrack_options hcp
  exact ⟨h1, h2, backtrack_history_nodup g e hcp hnd⟩

theorem claim_C10_witness :
    (Checkpoint.mk "b" 1 "L" false) ∈ get_available_backtrack_options stW2 ∧
    (stW2.backtrack_history.map BacktrackEvent.toWord).Nodup ∧
    ((Checkpoint.mk "b" 1 "L" false).used = false ∧
     (∀ ev ∈ stW2.backtrack_history, ev.toWord ≠ (Checkpoint.mk "b" 1 "L" false).word) ∧
     ((backtrack_to_checkpoint stW2 (Checkpoint.mk "b" 1 "L" false) [] "e").backtrack_history.map
       BacktrackEvent.toWord).Nodup) := by
  refine ⟨by decide, by decide, ?_⟩
  exact claim_C10 stW2 (Checkpoint.mk "b" 1 "L" false) [] "e" (by decide) (by decide)
end Synapse
